import Mathlib

/-!
Verification of the instruction-level peephole optimizer
(`src/passes/OptimizeInstructions.cpp`) against its natural-language
specification.

The development shallowly embeds the data model and the operations of the
pass.  Code that lives in this source unit (the `Match` helper, the
`handOptimize` catalogue, the `visitExpression` driving loop) is translated
directly from the C++.  Collaborators that the unit only calls into
(the IR node definitions, `ExpressionAnalyzer`, `ExpressionManipulator`,
the effect analyzer, the post-order walker) are modelled from the
specification; each such definition carries a doc comment saying so.
In-place mutation of the current node is made explicit through the
`HandResult` type, C++ exceptions raised during template instantiation
through `Except`, and the unbounded rewrite loop through explicit fuel.
-/

namespace OptInst

/-- Modelled from the spec: the value types of the IR, "one of four numeric
kinds or no value" (section 3).  Mirrors `WasmType` from the missing IR
definitions header. -/
inductive WasmType where
  | none
  | i32
  | i64
  | f32
  | f64
deriving DecidableEq

/-- Modelled from the spec: a literal constant value carried by a constant
node.  Mirrors the `Literal` union of the missing IR definitions header;
integer payloads are unbounded `Int` (the pass only ever compares them to
small constants), float payloads are kept as opaque bit patterns because the
pass never interprets them. -/
inductive Literal where
  | i32 (v : Int)
  | i64 (v : Int)
  | f32 (bits : Nat)
  | f64 (bits : Nat)
deriving DecidableEq

/-- The value type of a literal. -/
def Literal.litType : Literal → WasmType
  | .i32 _ => .i32
  | .i64 _ => .i64
  | .f32 _ => .f32
  | .f64 _ => .f64

/-- Modelled from the spec: `Literal::geti32` of the missing IR header
asserts that the literal is an i32 and returns its payload; the assertion is
rendered as partiality (`Option`). -/
def Literal.geti32 : Literal → Option Int
  | .i32 v => some v
  | _ => none

/-- Modelled from the spec: the binary operator codes used by the pass —
the shift pair of the sign-extend fusion, the integer and float comparison
operators of the De Morgan table ("the ordered/equality comparison
operators across all four numeric types, both signed and unsigned
variants"), and two arithmetic codes used to build concrete pattern
inputs.  Mirrors the `BinaryOp` enumeration of the missing IR header. -/
inductive BinaryOp where
  | addInt32 | subInt32 | shlInt32 | shrSInt32
  | eqInt32 | neInt32
  | ltSInt32 | ltUInt32 | leSInt32 | leUInt32
  | gtSInt32 | gtUInt32 | geSInt32 | geUInt32
  | eqInt64 | neInt64
  | ltSInt64 | ltUInt64 | leSInt64 | leUInt64
  | gtSInt64 | gtUInt64 | geSInt64 | geUInt64
  | eqFloat32 | neFloat32
  | ltFloat32 | leFloat32 | gtFloat32 | geFloat32
  | eqFloat64 | neFloat64
  | ltFloat64 | leFloat64 | gtFloat64 | geFloat64
deriving DecidableEq

/-- Modelled from the spec: the unary operator codes relevant to the pass;
`eqZInt32` is the dedicated is-zero test the rewrites produce and consume.
Mirrors the `UnaryOp` enumeration of the missing IR header. -/
inductive UnaryOp where
  | eqZInt32
  | eqZInt64
  | clzInt32
  | negFloat32
deriving DecidableEq

mutual
/-- Modelled from the spec: the instruction tree (section 3), "a tagged
variant over the instruction kinds needed by the optimizer".  Each node
carries its stored value type where the C++ node has a `type` field that is
not determined by the other fields.  Children are owned subtrees; the
borrowing that the C++ performs is rendered by plain value sharing.
Optional children and child lists use the companion types `ExprOpt` and
`ExprList` (isomorphic to `Option Expression` and `List Expression`) so
that the whole family is a plain mutual inductive. -/
inductive Expression where
  | const (lit : Literal)
  | unary (op : UnaryOp) (value : Expression) (ty : WasmType)
  | binary (op : BinaryOp) (left : Expression) (right : Expression) (ty : WasmType)
  | load (bytes : Nat) (signed : Bool) (offset : Nat) (align : Nat)
      (ptr : Expression) (ty : WasmType)
  | getGlobal (name : String) (ty : WasmType)
  | setGlobal (name : String) (value : Expression)
  | ifExpr (condition : Expression) (ifTrue : Expression)
      (ifFalse : ExprOpt) (ty : WasmType)
  | select (condition : Expression) (ifTrue : Expression)
      (ifFalse : Expression) (ty : WasmType)
  | break_ (name : String) (value : ExprOpt) (condition : ExprOpt)
  | callImport (target : String) (operands : ExprList) (ty : WasmType)
  | nop
deriving DecidableEq

/-- An optional child node (`Expression*` that may be null in the C++). -/
inductive ExprOpt where
  | none
  | some (e : Expression)
deriving DecidableEq

/-- A list of child nodes (`ExpressionList` in the C++). -/
inductive ExprList where
  | nil
  | cons (head : Expression) (tail : ExprList)
deriving DecidableEq
end

/-- The number of operands in a child list (`operands.size()`). -/
def ExprList.length : ExprList → Nat
  | .nil => 0
  | .cons _ t => t.length + 1

namespace Expression

/-- The stored value type of a node (the `type` field of the C++ node). -/
def type : Expression → WasmType
  | .const lit => lit.litType
  | .unary _ _ ty => ty
  | .binary _ _ _ ty => ty
  | .load _ _ _ _ _ ty => ty
  | .getGlobal _ ty => ty
  | .setGlobal _ _ => .none
  | .ifExpr _ _ _ ty => ty
  | .select _ _ _ ty => ty
  | .break_ _ _ _ => .none
  | .callImport _ _ ty => ty
  | .nop => .none

/-- The per-kind discriminator integer (`Expression::_id` in the C++),
used only for pattern-database dispatch. -/
def idNum : Expression → Nat
  | .const _ => 0
  | .unary _ _ _ => 1
  | .binary _ _ _ _ => 2
  | .load _ _ _ _ _ _ => 3
  | .getGlobal _ _ => 4
  | .setGlobal _ _ => 5
  | .ifExpr _ _ _ _ => 6
  | .select _ _ _ _ => 7
  | .break_ _ _ _ => 8
  | .callImport _ _ _ => 9
  | .nop => 10

end Expression

mutual
/-- Number of nodes in a tree; used to bound the rewrite loop. -/
def sizeE : Expression → Nat
  | .const _ => 1
  | .unary _ v _ => 1 + sizeE v
  | .binary _ l r _ => 1 + sizeE l + sizeE r
  | .load _ _ _ _ p _ => 1 + sizeE p
  | .getGlobal _ _ => 1
  | .setGlobal _ v => 1 + sizeE v
  | .ifExpr c t f _ => 1 + sizeE c + sizeE t + sizeO f
  | .select c t f _ => 1 + sizeE c + sizeE t + sizeE f
  | .break_ _ v c => 1 + sizeO v + sizeO c
  | .callImport _ ops _ => 1 + sizeL ops
  | .nop => 1

/-- Number of nodes in an optional child. -/
def sizeO : ExprOpt → Nat
  | .none => 0
  | .some e => sizeE e

/-- Number of nodes in a child list. -/
def sizeL : ExprList → Nat
  | .nil => 0
  | .cons h t => sizeE h + sizeL t
end

/-- The reserved wildcard call target names (`I32_EXPR` .. `ANY_EXPR`,
lines 31-35 of the source). -/
def wildcardNames : List String :=
  ["i32.expr", "i64.expr", "f32.expr", "f64.expr", "any.expr"]

/-- The required value type for a reserved wildcard target name, following
the dispatch chain at lines 126-136 of the source; `WasmType.none` is the
"any" requirement.  Yields `Option.none` for a target that is not one of
the five reserved names. -/
def wildcardInfo (target : String) : Option WasmType :=
  if target = "i32.expr" then some .i32
  else if target = "i64.expr" then some .i64
  else if target = "f32.expr" then some .f32
  else if target = "f64.expr" then some .f64
  else if target = "any.expr" then some WasmType.none
  else none

/-- The C++ converts the i32 payload of the wildcard operand (an `int32_t`)
to the unsigned `Index` type; modelled by reduction modulo `2 ^ 32`. -/
def toIndex (v : Int) : Nat := (v % 4294967296).toNat

/-- Parses a well-formed wildcard marker: a call to one of the five
reserved names whose single operand is an i32 constant, yielding the
required type and the wildcard index.  Malformed calls (wrong operand
count, operand not an i32 constant, target not reserved) yield none and
are treated as ordinary calls. -/
def markerInfo : Expression → Option (WasmType × Nat)
  | .callImport target (.cons (.const (.i32 v)) .nil) _ =>
    (wildcardInfo target).map (fun ty => (ty, toIndex v))
  | _ => none

/-- A pattern: an immutable pair of input and output instruction trees
(lines 38-43 of the source). -/
structure Pattern where
  input : Expression
  output : Expression

/-- The wildcard binding vector of one match attempt (`wildcards` at line
96 of the source); a `none` slot is a null entry. -/
abbrev Bindings := List (Option Expression)

namespace Match

/-- The `while (index >= wildcards.size()) wildcards.push_back(nullptr)`
padding loop at lines 114-116 of the source. -/
def padTo (w : Bindings) (n : Nat) : Bindings :=
  w ++ List.replicate (n - w.length) none

/-- The `checkMatch` lambda at lines 112-125 of the source: reject a typed
wildcard whose candidate has the wrong value type; bind a fresh slot to the
candidate subtree itself (no copy); require an already-bound slot to be
structurally equal to the candidate (`ExpressionAnalyzer::equal`, modelled
as decidable structural equality per spec section 4.3). -/
def checkMatch (ty : WasmType) (index : Nat) (subSeen : Expression)
    (w : Bindings) : Option Bindings :=
  if ty ≠ WasmType.none ∧ subSeen.type ≠ ty then none
  else
    let w2 := padTo w (index + 1)
    match w2[index]? with
    | some (some b) => if subSeen = b then some w2 else none
    | _ => some (w2.set index (some subSeen))

/-- `Match::compare` (lines 107-138 of the source): the custom comparison
hook.  A pattern node that is not a call, or whose operand count is not
one, or whose operand is not an i32 constant, is rejected (the operand
pattern below combines the operand-type test and the `is<Const>` test);
otherwise the five reserved names dispatch to `checkMatch` and anything
else is rejected. -/
def compare (subInput subSeen : Expression) (w : Bindings) : Option Bindings :=
  match subInput with
  | .callImport target ops _ =>
    match ops with
    | .cons (.const (.i32 v)) .nil =>
      match wildcardInfo target with
      | some ty => checkMatch ty (toIndex v) subSeen w
      | none => none
    | _ => none
  | _ => none

end Match

mutual
/-- Modelled from the spec: `ExpressionAnalyzer::flexibleEqual` of the
missing utility header, following spec section 4.3: a pattern node that is
a wildcard marker is handled exclusively by the wildcard logic
(`Match.compare`); otherwise the two nodes must share the same kind, the
same operator, type and scalar fields, and all corresponding children must
recursively match, threading the binding vector left to right. -/
def flexibleEqual (inp seen : Expression) (w : Bindings) : Option Bindings :=
  if (markerInfo inp).isSome then Match.compare inp seen w
  else
    match inp, seen with
    | .const l1, .const l2 => if l1 = l2 then some w else none
    | .unary o1 v1 t1, .unary o2 v2 t2 =>
      if o1 = o2 ∧ t1 = t2 then flexibleEqual v1 v2 w else none
    | .binary o1 l1 r1 t1, .binary o2 l2 r2 t2 =>
      if o1 = o2 ∧ t1 = t2 then
        match flexibleEqual l1 l2 w with
        | some w1 => flexibleEqual r1 r2 w1
        | none => none
      else none
    | .load b1 s1 o1 a1 p1 t1, .load b2 s2 o2 a2 p2 t2 =>
      if b1 = b2 ∧ s1 = s2 ∧ o1 = o2 ∧ a1 = a2 ∧ t1 = t2 then
        flexibleEqual p1 p2 w
      else none
    | .getGlobal n1 t1, .getGlobal n2 t2 =>
      if n1 = n2 ∧ t1 = t2 then some w else none
    | .setGlobal n1 v1, .setGlobal n2 v2 =>
      if n1 = n2 then flexibleEqual v1 v2 w else none
    | .ifExpr c1 t1 f1 ty1, .ifExpr c2 t2 f2 ty2 =>
      if ty1 = ty2 then
        match flexibleEqual c1 c2 w with
        | some w1 =>
          match flexibleEqual t1 t2 w1 with
          | some w2 => flexibleEqualOpt f1 f2 w2
          | none => none
        | none => none
      else none
    | .select c1 t1 f1 ty1, .select c2 t2 f2 ty2 =>
      if ty1 = ty2 then
        match flexibleEqual c1 c2 w with
        | some w1 =>
          match flexibleEqual t1 t2 w1 with
          | some w2 => flexibleEqual f1 f2 w2
          | none => none
        | none => none
      else none
    | .break_ n1 v1 c1, .break_ n2 v2 c2 =>
      if n1 = n2 then
        match flexibleEqualOpt v1 v2 w with
        | some w1 => flexibleEqualOpt c1 c2 w1
        | none => none
      else none
    | .callImport g1 ops1 ty1, .callImport g2 ops2 ty2 =>
      if g1 = g2 ∧ ty1 = ty2 then flexibleEqualList ops1 ops2 w else none
    | .nop, .nop => some w
    | _, _ => none

/-- Lock-step comparison of optional children. -/
def flexibleEqualOpt (inp seen : ExprOpt) (w : Bindings) : Option Bindings :=
  match inp, seen with
  | .none, .none => some w
  | .some a, .some b => flexibleEqual a b w
  | _, _ => none

/-- Lock-step comparison of child lists. -/
def flexibleEqualList (inp seen : ExprList) (w : Bindings) : Option Bindings :=
  match inp, seen with
  | .nil, .nil => some w
  | .cons h1 t1, .cons h2 t2 =>
    match flexibleEqual h1 h2 w with
    | some w1 => flexibleEqualList t1 t2 w1
    | none => none
  | _, _ => none
end

/-- `Match::check` (lines 101-105 of the source): a match attempt starts
from an empty binding vector. -/
def Match.check (p : Pattern) (seen : Expression) : Option Bindings :=
  flexibleEqual p.input seen []

/-- The failure modes of template instantiation: `outOfRange` models the
`std::out_of_range` exception thrown by `wildcards.at(index)` at line 155
of the source, and `nullBinding` models the undefined behaviour of copying
a null binding slot. -/
inductive ApplyErr where
  | outOfRange
  | nullBinding
deriving DecidableEq

/-- `Match::copy` (lines 149-158 of the source): the substitution hook of
template instantiation.  A malformed call (same tests as in
`Match.compare`) or a non-reserved target yields `ok none`, meaning the
node is copied as an ordinary node; a reserved wildcard reference is
replaced by its binding (`ExpressionManipulator::copy` of the bound
subtree, a value in this model), and a reference past the end of the
binding vector raises the out-of-range error of `std::vector::at`. -/
def Match.copySub (w : Bindings) (curr : Expression) : Except ApplyErr (Option Expression) :=
  match curr with
  | .callImport target ops _ =>
    match ops with
    | .cons (.const (.i32 v)) .nil =>
      if (wildcardInfo target).isSome then
        match w[toIndex v]? with
        | some (some b) => .ok (some b)
        | some none => .error .nullBinding
        | none => .error .outOfRange
      else .ok none
    | _ => .ok none
  | _ => .ok none

mutual
/-- Modelled from the spec: `ExpressionManipulator::flexibleCopy` of the
missing utility header, following spec section 4.4: deep-copy the output
template, except that a node for which the substitution hook produces a
subtree is replaced by that subtree, and a hook failure propagates. -/
def flexibleCopy (w : Bindings) (e : Expression) : Except ApplyErr Expression :=
  match Match.copySub w e with
  | .error er => .error er
  | .ok (some sub) => .ok sub
  | .ok none =>
    match e with
    | .const l => .ok (.const l)
    | .unary o v t =>
      match flexibleCopy w v with
      | .error er => .error er
      | .ok v2 => .ok (.unary o v2 t)
    | .binary o l r t =>
      match flexibleCopy w l with
      | .error er => .error er
      | .ok l2 =>
        match flexibleCopy w r with
        | .error er => .error er
        | .ok r2 => .ok (.binary o l2 r2 t)
    | .load b s off al p t =>
      match flexibleCopy w p with
      | .error er => .error er
      | .ok p2 => .ok (.load b s off al p2 t)
    | .getGlobal n t => .ok (.getGlobal n t)
    | .setGlobal n v =>
      match flexibleCopy w v with
      | .error er => .error er
      | .ok v2 => .ok (.setGlobal n v2)
    | .ifExpr c t f ty =>
      match flexibleCopy w c with
      | .error er => .error er
      | .ok c2 =>
        match flexibleCopy w t with
        | .error er => .error er
        | .ok t2 =>
          match flexibleCopyOpt w f with
          | .error er => .error er
          | .ok f2 => .ok (.ifExpr c2 t2 f2 ty)
    | .select c t f ty =>
      match flexibleCopy w c with
      | .error er => .error er
      | .ok c2 =>
        match flexibleCopy w t with
        | .error er => .error er
        | .ok t2 =>
          match flexibleCopy w f with
          | .error er => .error er
          | .ok f2 => .ok (.select c2 t2 f2 ty)
    | .break_ n v c =>
      match flexibleCopyOpt w v with
      | .error er => .error er
      | .ok v2 =>
        match flexibleCopyOpt w c with
        | .error er => .error er
        | .ok c2 => .ok (.break_ n v2 c2)
    | .callImport g ops ty =>
      match flexibleCopyList w ops with
      | .error er => .error er
      | .ok ops2 => .ok (.callImport g ops2 ty)
    | .nop => .ok .nop

/-- Deep copy of an optional child. -/
def flexibleCopyOpt (w : Bindings) (e : ExprOpt) : Except ApplyErr ExprOpt :=
  match e with
  | .none => .ok .none
  | .some a =>
    match flexibleCopy w a with
    | .error er => .error er
    | .ok a2 => .ok (.some a2)

/-- Deep copy of a child list. -/
def flexibleCopyList (w : Bindings) (e : ExprList) : Except ApplyErr ExprList :=
  match e with
  | .nil => .ok .nil
  | .cons h t =>
    match flexibleCopy w h with
    | .error er => .error er
    | .ok h2 =>
      match flexibleCopyList w t with
      | .error er => .error er
      | .ok t2 => .ok (.cons h2 t2)
end

/-- `Match::apply` (lines 143-145 of the source). -/
def Match.apply (p : Pattern) (w : Bindings) : Except ApplyErr Expression :=
  flexibleCopy w p.output

/-- The De Morgan switch at lines 231-261 of the source: the negated
operator for each handled comparison operator, and `none` for every
operator that falls into the `default` arm (notably all ordered float
comparisons). -/
def negateComparison : BinaryOp → Option BinaryOp
  | .eqInt32 => some .neInt32
  | .neInt32 => some .eqInt32
  | .ltSInt32 => some .geSInt32
  | .ltUInt32 => some .geUInt32
  | .leSInt32 => some .gtSInt32
  | .leUInt32 => some .gtUInt32
  | .gtSInt32 => some .leSInt32
  | .gtUInt32 => some .leUInt32
  | .geSInt32 => some .ltSInt32
  | .geUInt32 => some .ltUInt32
  | .eqInt64 => some .neInt64
  | .neInt64 => some .eqInt64
  | .ltSInt64 => some .geSInt64
  | .ltUInt64 => some .geUInt64
  | .leSInt64 => some .gtSInt64
  | .leUInt64 => some .gtUInt64
  | .gtSInt64 => some .leSInt64
  | .gtUInt64 => some .leUInt64
  | .geSInt64 => some .ltSInt64
  | .geUInt64 => some .ltUInt64
  | .eqFloat32 => some .neFloat32
  | .neFloat32 => some .eqFloat32
  | .eqFloat64 => some .neFloat64
  | .neFloat64 => some .eqFloat64
  | _ => none

/-- `optimizeBoolean` (lines 303-313 of the source): strip one double
is-zero from a condition expression. -/
def optimizeBoolean (boolean : Expression) : Expression :=
  match boolean with
  | .unary .eqZInt32 v _ =>
    match v with
    | .unary .eqZInt32 v2 _ => v2
    | _ => boolean
  | _ => boolean

/-- The sign-extend fusion at lines 200-212 of the source, for a binary
node already known to be `ShrSInt32`: the right operand must be a constant
of 24 or 16, the left operand a `ShlInt32` by an equal constant whose own
operand is a load of matching byte width; the result is that load with its
signedness flag set.  The C++ reads the shift constants with the asserting
`geti32`; the assertion is modelled by the partial `Literal.geti32`. -/
def signExtendFusion (l r : Expression) : Option Expression :=
  match r with
  | .const lit =>
    match lit.geti32 with
    | some shifts =>
      if shifts = 24 ∨ shifts = 16 then
        match l with
        | .binary .shlInt32 ll (.const lit2) _ =>
          if lit2.geti32 = some shifts then
            match ll with
            | .load bytes _ off al p lty =>
              if (bytes = 1 ∧ shifts = 24) ∨ (bytes = 2 ∧ shifts = 16) then
                some (.load bytes true off al p lty)
              else none
            | _ => none
          else none
        | _ => none
      else none
    | none => none
  | _ => none

/-- The left-constant half of the zero-comparison canonicalization (lines
220-225 of the source), reached when the right operand is not a zero
constant. -/
def eqZeroLeft (l r : Expression) : Option Expression :=
  match l with
  | .const lit =>
    if lit.geti32 = some 0 then some (.unary .eqZInt32 r .i32) else none
  | _ => none

/-- The zero-comparison canonicalization at lines 213-226 of the source,
for a binary node already known to be `EqInt32`: a constant-zero right
operand turns the node into is-zero of the left operand, else a
constant-zero left operand turns it into is-zero of the right operand.
The is-zero node built by `Builder::makeUnary` has type i32. -/
def eqZeroCanon (l r : Expression) : Option Expression :=
  match r with
  | .const lit =>
    if lit.geti32 = some 0 then some (.unary .eqZInt32 l .i32)
    else eqZeroLeft l r
  | _ => eqZeroLeft l r

/-- The observable outcome of one `handOptimize` call.  The C++ returns a
replacement pointer or null; when it returns null it may still have
mutated the current node in place (the self-assignment elimination, the
if-arm flip, the select flip and the condition normalizations).
`replaced e` is a non-null return of `e`; `inPlace e` is a null return
after the current node was assigned the value `e` in place; `unchanged` is
a null return with no mutation. -/
inductive HandResult where
  | replaced (e : Expression)
  | inPlace (e : Expression)
  | unchanged
deriving DecidableEq

/-- `OptimizeInstructions::handOptimize` (lines 198-299 of the source).
The effect analyzer consulted by the select flip is an external oracle
(spec section 6) and is passed in as the function `invalidates`, modelling
`EffectAnalyzer(ifTrue).invalidates(EffectAnalyzer(ifFalse))`. -/
def handOptimize (invalidates : Expression → Expression → Bool)
    (curr : Expression) : HandResult :=
  match curr with
  | .binary op l r _ =>
    if op = .shrSInt32 then
      match signExtendFusion l r with
      | some e => .replaced e
      | none => .unchanged
    else if op = .eqInt32 then
      match eqZeroCanon l r with
      | some e => .replaced e
      | none => .unchanged
    else .unchanged
  | .unary op v _ =>
    if op = .eqZInt32 then
      match v with
      | .binary bop bl br bty =>
        match negateComparison bop with
        | some bop2 => .replaced (.binary bop2 bl br bty)
        | none => .unchanged
      | _ => .unchanged
    else .unchanged
  | .setGlobal name value =>
    match value with
    | .getGlobal gname _ =>
      if gname = name then .inPlace .nop else .unchanged
    | _ => .unchanged
  | .ifExpr c t f ty =>
    let c2 := optimizeBoolean c
    match f with
    | .some fe =>
      match c2 with
      | .unary .eqZInt32 v _ => .inPlace (.ifExpr v fe (.some t) ty)
      | _ => .inPlace (.ifExpr c2 t f ty)
    | .none => .inPlace (.ifExpr c2 t f ty)
  | .select c t f ty =>
    let c2 := optimizeBoolean c
    match c2 with
    | .unary .eqZInt32 v _ =>
      if invalidates t f then .inPlace (.select c2 t f ty)
      else .inPlace (.select v f t ty)
    | _ => .inPlace (.select c2 t f ty)
  | .break_ name bval bcond =>
    match bcond with
    | .some ce => .inPlace (.break_ name bval (.some (optimizeBoolean ce)))
    | .none => .unchanged
  | _ => .unchanged

/-- The failure modes of one node visit: fuel exhaustion of the modelled
`while (1)` loop, or a propagating instantiation error. -/
inductive VisitErr where
  | fuel
  | applyFail (er : ApplyErr)
deriving DecidableEq

/-- The pattern-database bucket for a discriminator: the patterns whose
input root carries that discriminator, in declaration order (the map built
at lines 63-68 of the source). -/
def patternsFor (db : List Pattern) (id : Nat) : List Pattern :=
  db.filter (fun p => p.input.idNum = id)

/-- The pattern phase of `visitExpression` (lines 180-192 of the source):
try each bucket pattern in order, and on the first successful check apply
the match.  Yields `none` when no pattern matches (including an empty or
missing bucket). -/
def tryPatterns (db : List Pattern) (curr : Expression) :
    Option (Except ApplyErr Expression) :=
  match (patternsFor db curr.idNum).findSome?
      (fun p => (Match.check p curr).map (fun w => (p, w))) with
  | some (p, w) => some (Match.apply p w)
  | none => none

/-- `OptimizeInstructions::visitExpression` (lines 171-195 of the source):
the per-node `while (1)` loop.  A non-null `handOptimize` return becomes
the new current node and the loop restarts; a null return (with or without
an in-place mutation) falls through to the pattern phase; a successful
pattern application becomes the new current node and the loop restarts;
otherwise the loop exits with the current node.  The unbounded C++ loop is
modelled with explicit fuel, and fuel exhaustion is an error so that an
`ok` result is always a genuine loop exit. -/
def visitLoop (invalidates : Expression → Expression → Bool)
    (db : List Pattern) : Nat → Expression → Except VisitErr Expression
  | 0, _ => .error .fuel
  | fuel + 1, curr =>
    match handOptimize invalidates curr with
    | .replaced r => visitLoop invalidates db fuel r
    | .inPlace c2 =>
      match tryPatterns db c2 with
      | none => .ok c2
      | some (.error er) => .error (.applyFail er)
      | some (.ok applied) => visitLoop invalidates db fuel applied
    | .unchanged =>
      match tryPatterns db curr with
      | none => .ok curr
      | some (.error er) => .error (.applyFail er)
      | some (.ok applied) => visitLoop invalidates db fuel applied

mutual
/-- Modelled from the spec: the driving visitor (spec section 4.6), a
post-order walk of the tree that fixpoints every child before running the
per-node loop `visitLoop` on the rebuilt node, installing each replacement
in the parent as `replaceCurrent` does. -/
def optimizeExpr (invalidates : Expression → Expression → Bool)
    (db : List Pattern) (fuel : Nat) : Expression → Except VisitErr Expression
  | .const l => visitLoop invalidates db fuel (.const l)
  | .unary o v t =>
    match optimizeExpr invalidates db fuel v with
    | .error er => .error er
    | .ok v2 => visitLoop invalidates db fuel (.unary o v2 t)
  | .binary o l r t =>
    match optimizeExpr invalidates db fuel l with
    | .error er => .error er
    | .ok l2 =>
      match optimizeExpr invalidates db fuel r with
      | .error er => .error er
      | .ok r2 => visitLoop invalidates db fuel (.binary o l2 r2 t)
  | .load b s off al p t =>
    match optimizeExpr invalidates db fuel p with
    | .error er => .error er
    | .ok p2 => visitLoop invalidates db fuel (.load b s off al p2 t)
  | .getGlobal n t => visitLoop invalidates db fuel (.getGlobal n t)
  | .setGlobal n v =>
    match optimizeExpr invalidates db fuel v with
    | .error er => .error er
    | .ok v2 => visitLoop invalidates db fuel (.setGlobal n v2)
  | .ifExpr c t f ty =>
    match optimizeExpr invalidates db fuel c with
    | .error er => .error er
    | .ok c2 =>
      match optimizeExpr invalidates db fuel t with
      | .error er => .error er
      | .ok t2 =>
        match optimizeOpt invalidates db fuel f with
        | .error er => .error er
        | .ok f2 => visitLoop invalidates db fuel (.ifExpr c2 t2 f2 ty)
  | .select c t f ty =>
    match optimizeExpr invalidates db fuel c with
    | .error er => .error er
    | .ok c2 =>
      match optimizeExpr invalidates db fuel t with
      | .error er => .error er
      | .ok t2 =>
        match optimizeExpr invalidates db fuel f with
        | .error er => .error er
        | .ok f2 => visitLoop invalidates db fuel (.select c2 t2 f2 ty)
  | .break_ n v c =>
    match optimizeOpt invalidates db fuel v with
    | .error er => .error er
    | .ok v2 =>
      match optimizeOpt invalidates db fuel c with
      | .error er => .error er
      | .ok c2 => visitLoop invalidates db fuel (.break_ n v2 c2)
  | .callImport g ops ty =>
    match optimizeList invalidates db fuel ops with
    | .error er => .error er
    | .ok ops2 => visitLoop invalidates db fuel (.callImport g ops2 ty)
  | .nop => visitLoop invalidates db fuel .nop

/-- Post-order walk of an optional child. -/
def optimizeOpt (invalidates : Expression → Expression → Bool)
    (db : List Pattern) (fuel : Nat) : ExprOpt → Except VisitErr ExprOpt
  | .none => .ok .none
  | .some e =>
    match optimizeExpr invalidates db fuel e with
    | .error er => .error er
    | .ok e2 => .ok (.some e2)

/-- Post-order walk of a child list. -/
def optimizeList (invalidates : Expression → Expression → Bool)
    (db : List Pattern) (fuel : Nat) : ExprList → Except VisitErr ExprList
  | .nil => .ok .nil
  | .cons h t =>
    match optimizeExpr invalidates db fuel h with
    | .error er => .error er
    | .ok h2 =>
      match optimizeList invalidates db fuel t with
      | .error er => .error er
      | .ok t2 => .ok (.cons h2 t2)
end

/-- An effect oracle that reports no conflict between any two operands. -/
def neverInvalidates : Expression → Expression → Bool := fun _ _ => false

/-- An effect oracle that reports a conflict between any two operands. -/
def alwaysInvalidates : Expression → Expression → Bool := fun _ _ => true

deriving instance DecidableEq for Except

/-- Shorthand for the is-zero unary test on an i32 value. -/
def eqzE (e : Expression) : Expression := .unary .eqZInt32 e .i32

/-- Shorthand for an i32 constant node. -/
def cI32 (v : Int) : Expression := .const (.i32 v)

/-- A sample observable i32 expression used in concrete instances. -/
def gGet : Expression := .getGlobal "g" .i32

/-- A well-formed wildcard marker of required type i32 with the given
index, as it appears in pattern inputs. -/
def wcMark (i : Nat) : Expression :=
  .callImport "i32.expr" (.cons (.const (.i32 (Int.ofNat i))) .nil) .i32

/-- Transcription of claim C2, the spec-side characterization of the
sign-extend fusion: the node fuses exactly when both shift amounts are the
same integer constant `k`, the shifted operand is a memory load, and the
byte width of the load matches `k` (1 byte for 24, 2 bytes for 16); the
result is that load marked sign-extending.  Written from the words of the
claim, to be compared with the source-translated `signExtendFusion`. -/
def signExtendSpec (l r : Expression) : Option Expression :=
  match l, r with
  | .binary .shlInt32 (.load bytes _ off al p lty) (.const (.i32 k1)) _,
    .const (.i32 k2) =>
    if k1 = k2 ∧ ((bytes = 1 ∧ k2 = 24) ∨ (bytes = 2 ∧ k2 = 16)) then
      some (.load bytes true off al p lty)
    else none
  | _, _ => none

/-- Whether a node is the is-zero unary test (used to say that a condition
is already normalized: `optimizeBoolean` leaves `eqz c` alone exactly when
`c` is not itself an `eqz`). -/
def isEqZUnary : Expression → Bool
  | .unary .eqZInt32 _ _ => true
  | _ => false

/-- The De Morgan rewrite fires: for all operands and stored types,
is-zero of `op` is replaced by the bare comparison with operator `op2`. -/
def negRewrites (op op2 : BinaryOp) : Prop :=
  ∀ (inv : Expression → Expression → Bool) (x y : Expression)
    (bty uty : WasmType),
    handOptimize inv (.unary .eqZInt32 (.binary op x y bty) uty) =
      .replaced (.binary op2 x y bty)

/-- The De Morgan rewrite declines: is-zero of `op` is left untouched. -/
def negUntouched (op : BinaryOp) : Prop :=
  ∀ (inv : Expression → Expression → Bool) (x y : Expression)
    (bty uty : WasmType),
    handOptimize inv (.unary .eqZInt32 (.binary op x y bty) uty) = .unchanged

mutual
/-- Trees with no `if`, `select` or conditional-break node anywhere; on
these the hand-coded rules never mutate a node in place except the
self-assignment elimination. -/
def condFree : Expression → Bool
  | .const _ => true
  | .unary _ v _ => condFree v
  | .binary _ l r _ => condFree l && condFree r
  | .load _ _ _ _ p _ => condFree p
  | .getGlobal _ _ => true
  | .setGlobal _ v => condFree v
  | .ifExpr _ _ _ _ => false
  | .select _ _ _ _ => false
  | .break_ _ _ _ => false
  | .callImport _ ops _ => condFreeL ops
  | .nop => true

/-- `condFree` on an optional child. -/
def condFreeO : ExprOpt → Bool
  | .none => true
  | .some e => condFree e

/-- `condFree` on a child list. -/
def condFreeL : ExprList → Bool
  | .nil => true
  | .cons h t => condFree h && condFreeL t
end

mutual
/-- Every node of the tree is a fixpoint of the hand-coded rules: the
rules neither replace it nor mutate it. -/
def allFixed (inv : Expression → Expression → Bool) : Expression → Prop
  | .const l => handOptimize inv (.const l) = .unchanged
  | .unary o v t => handOptimize inv (.unary o v t) = .unchanged ∧ allFixed inv v
  | .binary o l r t =>
    handOptimize inv (.binary o l r t) = .unchanged ∧ allFixed inv l ∧ allFixed inv r
  | .load b s off al p t =>
    handOptimize inv (.load b s off al p t) = .unchanged ∧ allFixed inv p
  | .getGlobal n t => handOptimize inv (.getGlobal n t) = .unchanged
  | .setGlobal n v =>
    handOptimize inv (.setGlobal n v) = .unchanged ∧ allFixed inv v
  | .ifExpr c t f ty =>
    handOptimize inv (.ifExpr c t f ty) = .unchanged ∧
      allFixed inv c ∧ allFixed inv t ∧ allFixedO inv f
  | .select c t f ty =>
    handOptimize inv (.select c t f ty) = .unchanged ∧
      allFixed inv c ∧ allFixed inv t ∧ allFixed inv f
  | .break_ n v c =>
    handOptimize inv (.break_ n v c) = .unchanged ∧
      allFixedO inv v ∧ allFixedO inv c
  | .callImport g ops t =>
    handOptimize inv (.callImport g ops t) = .unchanged ∧ allFixedL inv ops
  | .nop => handOptimize inv .nop = .unchanged

/-- `allFixed` on an optional child. -/
def allFixedO (inv : Expression → Expression → Bool) : ExprOpt → Prop
  | .none => True
  | .some e => allFixed inv e

/-- `allFixed` on a child list. -/
def allFixedL (inv : Expression → Expression → Bool) : ExprList → Prop
  | .nil => True
  | .cons h t => allFixed inv h ∧ allFixedL inv t
end

/-- Every proper subtree of the node is `allFixed` (the node itself may
still be rewritable). -/
def childrenFixed (inv : Expression → Expression → Bool) : Expression → Prop
  | .const _ => True
  | .unary _ v _ => allFixed inv v
  | .binary _ l r _ => allFixed inv l ∧ allFixed inv r
  | .load _ _ _ _ p _ => allFixed inv p
  | .getGlobal _ _ => True
  | .setGlobal _ v => allFixed inv v
  | .ifExpr c t f _ => allFixed inv c ∧ allFixed inv t ∧ allFixedO inv f
  | .select c t f _ => allFixed inv c ∧ allFixed inv t ∧ allFixed inv f
  | .break_ _ v c => allFixedO inv v ∧ allFixedO inv c
  | .callImport _ ops _ => allFixedL inv ops
  | .nop => True

mutual
/-- The wildcard indices referenced by an output template, following the
traversal of `flexibleCopy`: a well-formed wildcard marker contributes its
index and is not descended into; every other node contributes the
references of its children. -/
def wildcardRefs (e : Expression) : List Nat :=
  match markerInfo e with
  | some (_, i) => [i]
  | none =>
    match e with
    | .const _ => []
    | .unary _ v _ => wildcardRefs v
    | .binary _ l r _ => wildcardRefs l ++ wildcardRefs r
    | .load _ _ _ _ p _ => wildcardRefs p
    | .getGlobal _ _ => []
    | .setGlobal _ v => wildcardRefs v
    | .ifExpr c t f _ => wildcardRefs c ++ wildcardRefs t ++ wildcardRefsO f
    | .select c t f _ => wildcardRefs c ++ wildcardRefs t ++ wildcardRefs f
    | .break_ _ v c => wildcardRefsO v ++ wildcardRefsO c
    | .callImport _ ops _ => wildcardRefsL ops
    | .nop => []

/-- Wildcard references of an optional child. -/
def wildcardRefsO : ExprOpt → List Nat
  | .none => []
  | .some e => wildcardRefs e

/-- Wildcard references of a child list. -/
def wildcardRefsL : ExprList → List Nat
  | .nil => []
  | .cons h t => wildcardRefs h ++ wildcardRefsL t
end

/-- An if node whose condition is a fourfold is-zero of an observable i32
value. -/
def ifFour : Expression :=
  .ifExpr (eqzE (eqzE (eqzE (eqzE gGet)))) (cI32 1) (.some (cI32 2)) .i32

/-- The result of one optimizer run on `ifFour`: the condition was
normalized to a single is-zero and the arms were flipped once. -/
def ifOnce : Expression :=
  .ifExpr (eqzE gGet) (cI32 2) (.some (cI32 1)) .i32

/-- The result of a second optimizer run on `ifOnce`: the remaining
is-zero is eliminated by flipping the arms back. -/
def ifTwice : Expression :=
  .ifExpr gGet (cI32 1) (.some (cI32 2)) .i32

/-- A select whose condition is a normalized is-zero. -/
def selNeg : Expression := .select (eqzE gGet) (cI32 1) (cI32 2) .i32

/-- A pattern whose output references wildcard index 0 while its input
binds no wildcard at all. -/
def patConstWc : Pattern := ⟨cI32 1, wcMark 0⟩

/-- The `x - x` pattern: both operands of the input are wildcard index 0. -/
def patSubXX : Pattern :=
  ⟨.binary .subInt32 (wcMark 0) (wcMark 0) .i32, wcMark 0⟩

section HandLemmas

variable {inv : Expression → Expression → Bool}

/-- With an empty database the pattern phase never fires. -/
theorem tryPatterns_nil (curr : Expression) : tryPatterns [] curr = none := rfl

/-- One step of the per-node loop with an empty database. -/
theorem visitLoop_nil_succ (inv : Expression → Expression → Bool)
    (fuel : Nat) (curr : Expression) :
    visitLoop inv [] (fuel + 1) curr =
      match handOptimize inv curr with
      | .replaced r => visitLoop inv [] fuel r
      | .inPlace c2 => .ok c2
      | .unchanged => .ok curr := by
  cases h : handOptimize inv curr <;>
    simp [visitLoop, h, tryPatterns_nil]

/-- The `ShrSInt32` arm of `handOptimize` is exactly the sign-extend
fusion. -/
theorem handOptimize_shrS (inv : Expression → Expression → Bool)
    (l r : Expression) (ty : WasmType) :
    handOptimize inv (.binary .shrSInt32 l r ty) =
      (signExtendFusion l r).elim .unchanged .replaced := by
  cases h : signExtendFusion l r <;> simp [handOptimize, h, Option.elim]

/-- The `EqInt32` arm of `handOptimize` is exactly the zero-comparison
canonicalization. -/
theorem handOptimize_eq32 (inv : Expression → Expression → Bool)
    (l r : Expression) (ty : WasmType) :
    handOptimize inv (.binary .eqInt32 l r ty) =
      (eqZeroCanon l r).elim .unchanged .replaced := by
  cases h : eqZeroCanon l r <;> simp [handOptimize, h, Option.elim]

/-- Inversion of a successful sign-extend fusion: the exact node shapes
that are required, and the exact result. -/
theorem signExtendFusion_some {l r e : Expression}
    (h : signExtendFusion l r = some e) :
    ∃ bytes sg off al p lty shlty k,
      l = .binary .shlInt32 (.load bytes sg off al p lty)
            (.const (.i32 k)) shlty ∧
      r = .const (.i32 k) ∧
      ((bytes = 1 ∧ k = 24) ∨ (bytes = 2 ∧ k = 16)) ∧
      e = .load bytes true off al p lty := by
  unfold signExtendFusion at h
  split at h
  next lit =>
    cases lit with
    | i32 k =>
      simp only [Literal.geti32] at h
      split at h
      next hk =>
        split at h
        next ll lit2 shlty =>
          split at h
          next hk2 =>
            cases lit2 with
            | i32 k2 =>
              simp only [Literal.geti32, Option.some.injEq] at hk2
              subst hk2
              split at h
              next bytes sg off al p lty =>
                split at h
                next hbytes =>
                  refine ⟨bytes, sg, off, al, p, lty, shlty, k2, rfl, rfl,
                    hbytes, ?_⟩
                  simpa using h.symm
                next => simp at h
              next => simp at h
            | i64 v => simp [Literal.geti32] at hk2
            | f32 b => simp [Literal.geti32] at hk2
            | f64 b => simp [Literal.geti32] at hk2
          next => simp at h
        next => simp at h
      next => simp at h
    | i64 v => simp [Literal.geti32] at h
    | f32 b => simp [Literal.geti32] at h
    | f64 b => simp [Literal.geti32] at h
  next => simp at h

/-- The sign-extend fusion fires on the required shape. -/
theorem signExtendFusion_fires (bytes : Nat) (sg : Bool) (off al : Nat)
    (p : Expression) (lty : WasmType) (shlty : WasmType) (k : Int)
    (hk : (bytes = 1 ∧ k = 24) ∨ (bytes = 2 ∧ k = 16)) :
    signExtendFusion
        (.binary .shlInt32 (.load bytes sg off al p lty)
          (.const (.i32 k)) shlty)
        (.const (.i32 k)) = some (.load bytes true off al p lty) := by
  rcases hk with ⟨hb, hkk⟩ | ⟨hb, hkk⟩ <;> subst hb <;> subst hkk <;> rfl

/-- Inversion of a successful zero-comparison canonicalization. -/
theorem eqZeroCanon_some {l r e : Expression}
    (h : eqZeroCanon l r = some e) :
    (∃ lit, r = .const lit ∧ lit.geti32 = some 0 ∧
        e = .unary .eqZInt32 l .i32) ∨
    (∃ lit, l = .const lit ∧ lit.geti32 = some 0 ∧
        e = .unary .eqZInt32 r .i32) := by
  have hleft : ∀ (h2 : eqZeroLeft l r = some e),
      ∃ lit, l = .const lit ∧ lit.geti32 = some 0 ∧
        e = .unary .eqZInt32 r .i32 := by
    intro h2
    unfold eqZeroLeft at h2
    split at h2
    next lit =>
      split at h2
      next hz => exact ⟨lit, rfl, hz, by simpa using h2.symm⟩
      next => simp at h2
    next => simp at h2
  unfold eqZeroCanon at h
  split at h
  next lit =>
    split at h
    next hz => exact Or.inl ⟨lit, rfl, hz, by simpa using h.symm⟩
    next => exact Or.inr (hleft h)
  next => exact Or.inr (hleft h)

/-- Inversion of a replacement-returning `handOptimize` call: only the
sign-extend fusion, the zero-comparison canonicalization and the De Morgan
flip return a fresh node. -/
theorem handOptimize_replaced_inv {inv : Expression → Expression → Bool}
    {e r : Expression} (h : handOptimize inv e = .replaced r) :
    (∃ l rr ty, e = .binary .shrSInt32 l rr ty ∧ signExtendFusion l rr = some r) ∨
    (∃ l rr ty, e = .binary .eqInt32 l rr ty ∧ eqZeroCanon l rr = some r) ∨
    (∃ bop bl br bty uty bop2,
      e = .unary .eqZInt32 (.binary bop bl br bty) uty ∧
      negateComparison bop = some bop2 ∧ r = .binary bop2 bl br bty) := by
  cases e with
  | binary op l rr ty =>
    simp only [handOptimize] at h
    split at h
    next hop =>
      split at h
      next e2 heq =>
        cases h
        exact Or.inl ⟨l, rr, ty, by rw [hop], heq⟩
      next => simp at h
    next hop =>
      split at h
      next hop2 =>
        split at h
        next e2 heq =>
          cases h
          exact Or.inr (Or.inl ⟨l, rr, ty, by rw [hop2], heq⟩)
        next => simp at h
      next => simp at h
  | unary op v ty =>
    simp only [handOptimize] at h
    split at h
    next hop =>
      split at h
      next bop bl br bty =>
        split at h
        next bop2 heq =>
          cases h
          exact Or.inr (Or.inr ⟨bop, bl, br, bty, ty, bop2, by rw [hop], heq, rfl⟩)
        next => simp at h
      next => simp at h
    next => simp at h
  | setGlobal n v =>
    simp only [handOptimize] at h
    split at h
    next gname gty =>
      split at h <;> simp at h
    next => simp at h
  | ifExpr c t f ty =>
    simp only [handOptimize] at h
    split at h
    next fe =>
      split at h <;> simp at h
    next => simp at h
  | select c t f ty =>
    simp only [handOptimize] at h
    split at h
    next v vt =>
      split at h <;> simp at h
    next => simp at h
  | break_ n bv bc =>
    simp only [handOptimize] at h
    split at h <;> simp at h
  | const l => simp [handOptimize] at h
  | load b s off al p t => simp [handOptimize] at h
  | getGlobal n t => simp [handOptimize] at h
  | callImport g ops t => simp [handOptimize] at h
  | nop => simp [handOptimize] at h

/-- Every tree has at least one node. -/
theorem sizeE_pos (e : Expression) : 1 ≤ sizeE e := by
  cases e <;> simp [sizeE] <;> omega

/-- Every replacement returned by a hand-coded rule is strictly smaller
than the node it replaces. -/
theorem hand_shrinks {e r : Expression}
    (h : handOptimize inv e = .replaced r) : sizeE r < sizeE e := by
  rcases handOptimize_replaced_inv h with
    ⟨l, rr, ty, he, hfus⟩ | ⟨l, rr, ty, he, hcanon⟩ |
    ⟨bop, bl, br, bty, uty, bop2, he, hneg, hr⟩
  · subst he
    obtain ⟨bytes, sg, off, al, p, lty, shlty, k, hl, hrr, hbk, hre⟩ :=
      signExtendFusion_some hfus
    subst hl; subst hrr; subst hre
    simp [sizeE]; omega
  · subst he
    rcases eqZeroCanon_some hcanon with ⟨lit, hrr, _, hre⟩ | ⟨lit, hll, _, hre⟩
    · subst hrr; subst hre; simp [sizeE]
    · subst hll; subst hre; simp [sizeE]
  · subst he; subst hr; simp [sizeE]

/-- Replacements preserve freedom from `if`, `select` and conditional
break nodes. -/
theorem hand_replaced_condFree {e r : Expression}
    (hc : condFree e = true) (h : handOptimize inv e = .replaced r) :
    condFree r = true := by
  rcases handOptimize_replaced_inv h with
    ⟨l, rr, ty, he, hfus⟩ | ⟨l, rr, ty, he, hcanon⟩ |
    ⟨bop, bl, br, bty, uty, bop2, he, hneg, hr⟩
  · subst he
    obtain ⟨bytes, sg, off, al, p, lty, shlty, k, hl, hrr, hbk, hre⟩ :=
      signExtendFusion_some hfus
    subst hl; subst hrr; subst hre
    simp [condFree] at hc ⊢
    tauto
  · subst he
    rcases eqZeroCanon_some hcanon with ⟨lit, hrr, _, hre⟩ | ⟨lit, hll, _, hre⟩
    · subst hrr; subst hre
      simp [condFree] at hc ⊢
      tauto
    · subst hll; subst hre
      simp [condFree] at hc ⊢
      tauto
  · subst he; subst hr
    simp [condFree] at hc ⊢
    tauto

/-- Replacements rebuild their result out of already-fixpointed subtrees:
if every proper subtree of the node was a hand-rule fixpoint, so is every
proper subtree of the replacement. -/
theorem hand_replaced_childrenFixed {e r : Expression}
    (hcf : childrenFixed inv e) (h : handOptimize inv e = .replaced r) :
    childrenFixed inv r := by
  rcases handOptimize_replaced_inv h with
    ⟨l, rr, ty, he, hfus⟩ | ⟨l, rr, ty, he, hcanon⟩ |
    ⟨bop, bl, br, bty, uty, bop2, he, hneg, hr⟩
  · subst he
    obtain ⟨bytes, sg, off, al, p, lty, shlty, k, hl, hrr, hbk, hre⟩ :=
      signExtendFusion_some hfus
    subst hl; subst hrr; subst hre
    simp [childrenFixed, allFixed] at hcf ⊢
    tauto
  · subst he
    rcases eqZeroCanon_some hcanon with ⟨lit, hrr, _, hre⟩ | ⟨lit, hll, _, hre⟩
    · subst hrr; subst hre
      simp [childrenFixed] at hcf ⊢
      tauto
    · subst hll; subst hre
      simp [childrenFixed] at hcf ⊢
      tauto
  · subst he; subst hr
    simp [childrenFixed, allFixed] at hcf ⊢
    tauto

/-- On trees without `if`, `select` or conditional-break nodes, the only
in-place mutation a hand-coded rule performs is turning a self-assignment
into a no-op. -/
theorem hand_inPlace_condFree {e c2 : Expression}
    (hc : condFree e = true) (h : handOptimize inv e = .inPlace c2) :
    c2 = .nop := by
  cases e with
  | setGlobal n v =>
    simp only [handOptimize] at h
    split at h
    next gname gty =>
      split at h
      next => cases h; rfl
      next => simp at h
    next => simp at h
  | ifExpr c t f ty => simp [condFree] at hc
  | select c t f ty => simp [condFree] at hc
  | break_ n bv bc => simp [condFree] at hc
  | binary op l rr ty =>
    simp only [handOptimize] at h
    split at h
    next =>
      split at h <;> simp at h
    next =>
      split at h
      next => split at h <;> simp at h
      next => simp at h
  | unary op v ty =>
    simp only [handOptimize] at h
    split at h
    next =>
      split at h
      next => split at h <;> simp at h
      next => simp at h
    next => simp at h
  | const l => simp [handOptimize] at h
  | load b s off al p t => simp [handOptimize] at h
  | getGlobal n t => simp [handOptimize] at h
  | callImport g ops t => simp [handOptimize] at h
  | nop => simp [handOptimize] at h

/-- A tree is a full fixpoint exactly when its root is unchanged by the
hand rules and all its proper subtrees are full fixpoints. -/
theorem allFixed_iff {e : Expression} :
    allFixed inv e ↔
      handOptimize inv e = .unchanged ∧ childrenFixed inv e := by
  cases e <;> simp [allFixed, childrenFixed]

/-- The per-node loop with an empty database, started on a tree without
conditionals whose proper subtrees are all hand-rule fixpoints, terminates
within `sizeE` steps on a full fixpoint no larger than the input. -/
theorem visitLoop_good :
    ∀ fuel (e : Expression), condFree e = true → childrenFixed inv e →
      sizeE e < fuel →
      ∃ e2, visitLoop inv [] fuel e = .ok e2 ∧ allFixed inv e2 ∧
        condFree e2 = true ∧ sizeE e2 ≤ sizeE e := by
  intro fuel
  induction fuel with
  | zero => intro e _ _ hs; omega
  | succ n ih =>
    intro e hc hcf hs
    rw [visitLoop_nil_succ]
    cases h : handOptimize inv e with
    | replaced r =>
      have h1 := hand_shrinks h
      have h2 := hand_replaced_condFree hc h
      have h3 := hand_replaced_childrenFixed hcf h
      obtain ⟨e2, he2, hf, hcf2, hsz⟩ := ih r h2 h3 (by omega)
      exact ⟨e2, he2, hf, hcf2, by omega⟩
    | inPlace c2 =>
      have hnop := hand_inPlace_condFree hc h
      subst hnop
      refine ⟨.nop, rfl, rfl, rfl, ?_⟩
      have := sizeE_pos e
      simp [sizeE]; omega
    | unchanged =>
      exact ⟨e, rfl, allFixed_iff.mpr ⟨h, hcf⟩, hc, le_refl _⟩

/-- The per-node loop exits at once on a node the hand rules leave
unchanged when there are no patterns. -/
theorem visitLoop_unchanged {e : Expression}
    (h : handOptimize inv e = .unchanged) {fuel : Nat} (hf : 1 ≤ fuel) :
    visitLoop inv [] fuel e = .ok e := by
  cases fuel with
  | zero => omega
  | succ n => rw [visitLoop_nil_succ, h]

end HandLemmas

mutual
/-- On a full hand-rule fixpoint the whole optimizer is the identity. -/
theorem optimizeExpr_fixed (inv : Expression → Expression → Bool)
    (fuel : Nat) (hf : 1 ≤ fuel) :
    ∀ e, allFixed inv e → optimizeExpr inv [] fuel e = .ok e
  | .const l, h => by
    simp only [optimizeExpr]
    exact visitLoop_unchanged h hf
  | .unary o v t, h => by
    have ihv := optimizeExpr_fixed inv fuel hf v h.2
    simp only [optimizeExpr, ihv]
    exact visitLoop_unchanged h.1 hf
  | .binary o l r t, h => by
    have ihl := optimizeExpr_fixed inv fuel hf l h.2.1
    have ihr := optimizeExpr_fixed inv fuel hf r h.2.2
    simp only [optimizeExpr, ihl, ihr]
    exact visitLoop_unchanged h.1 hf
  | .load b s off al p t, h => by
    have ihp := optimizeExpr_fixed inv fuel hf p h.2
    simp only [optimizeExpr, ihp]
    exact visitLoop_unchanged h.1 hf
  | .getGlobal n t, h => by
    simp only [optimizeExpr]
    exact visitLoop_unchanged h hf
  | .setGlobal n v, h => by
    have ihv := optimizeExpr_fixed inv fuel hf v h.2
    simp only [optimizeExpr, ihv]
    exact visitLoop_unchanged h.1 hf
  | .ifExpr c t f ty, h => by
    have ihc := optimizeExpr_fixed inv fuel hf c h.2.1
    have iht := optimizeExpr_fixed inv fuel hf t h.2.2.1
    have ihf := optimizeOpt_fixed inv fuel hf f h.2.2.2
    simp only [optimizeExpr, ihc, iht, ihf]
    exact visitLoop_unchanged h.1 hf
  | .select c t f ty, h => by
    have ihc := optimizeExpr_fixed inv fuel hf c h.2.1
    have iht := optimizeExpr_fixed inv fuel hf t h.2.2.1
    have ihf := optimizeExpr_fixed inv fuel hf f h.2.2.2
    simp only [optimizeExpr, ihc, iht, ihf]
    exact visitLoop_unchanged h.1 hf
  | .break_ n v c, h => by
    have ihv := optimizeOpt_fixed inv fuel hf v h.2.1
    have ihc := optimizeOpt_fixed inv fuel hf c h.2.2
    simp only [optimizeExpr, ihv, ihc]
    exact visitLoop_unchanged h.1 hf
  | .callImport g ops t, h => by
    have ihops := optimizeList_fixed inv fuel hf ops h.2
    simp only [optimizeExpr, ihops]
    exact visitLoop_unchanged h.1 hf
  | .nop, h => by
    simp only [optimizeExpr]
    exact visitLoop_unchanged h hf

/-- `optimizeExpr_fixed` on an optional child. -/
theorem optimizeOpt_fixed (inv : Expression → Expression → Bool)
    (fuel : Nat) (hf : 1 ≤ fuel) :
    ∀ o, allFixedO inv o → optimizeOpt inv [] fuel o = .ok o
  | .none, _ => rfl
  | .some e, h => by
    have ihe := optimizeExpr_fixed inv fuel hf e h
    simp only [optimizeOpt, ihe]

/-- `optimizeExpr_fixed` on a child list. -/
theorem optimizeList_fixed (inv : Expression → Expression → Bool)
    (fuel : Nat) (hf : 1 ≤ fuel) :
    ∀ ops, allFixedL inv ops → optimizeList inv [] fuel ops = .ok ops
  | .nil, _ => rfl
  | .cons h t, hh => by
    have ih1 := optimizeExpr_fixed inv fuel hf h hh.1
    have ih2 := optimizeList_fixed inv fuel hf t hh.2
    simp only [optimizeList, ih1, ih2]
end

mutual
/-- With no patterns, the full optimizer run on a tree free of
conditionals converges to a full hand-rule fixpoint no larger than its
input, given fuel above the tree size. -/
theorem optimizeExpr_good (inv : Expression → Expression → Bool)
    (fuel : Nat) :
    ∀ e, condFree e = true → sizeE e < fuel →
      ∃ e2, optimizeExpr inv [] fuel e = .ok e2 ∧ allFixed inv e2 ∧
        condFree e2 = true ∧ sizeE e2 ≤ sizeE e
  | .const l, hc, hs => by
    obtain ⟨e2, h1, h2, h3, h4⟩ :=
      visitLoop_good fuel (.const l) hc trivial hs
    exact ⟨e2, by simpa only [optimizeExpr] using h1, h2, h3, h4⟩
  | .unary o v t, hc, hs => by
    have hcv : condFree v = true := by simpa [condFree] using hc
    have hsv : sizeE v < fuel := by simp [sizeE] at hs; omega
    obtain ⟨v2, hv1, hv2, hv3, hv4⟩ := optimizeExpr_good inv fuel v hcv hsv
    have hs2 : sizeE (.unary o v2 t) < fuel := by
      simp [sizeE] at hs ⊢; omega
    obtain ⟨e2, h1, h2, h3, h4⟩ := visitLoop_good fuel (.unary o v2 t)
      (by simp [condFree, hv3]) hv2 hs2
    refine ⟨e2, ?_, h2, h3, ?_⟩
    · simp only [optimizeExpr, hv1]; exact h1
    · simp [sizeE] at h4 hs ⊢; omega
  | .binary o l r t, hc, hs => by
    have hcl : condFree l = true := by
      simp [condFree, Bool.and_eq_true] at hc; exact hc.1
    have hcr : condFree r = true := by
      simp [condFree, Bool.and_eq_true] at hc; exact hc.2
    have hsl : sizeE l < fuel := by simp [sizeE] at hs; omega
    have hsr : sizeE r < fuel := by simp [sizeE] at hs; omega
    obtain ⟨l2, hl1, hl2, hl3, hl4⟩ := optimizeExpr_good inv fuel l hcl hsl
    obtain ⟨r2, hr1, hr2, hr3, hr4⟩ := optimizeExpr_good inv fuel r hcr hsr
    have hs2 : sizeE (.binary o l2 r2 t) < fuel := by
      simp [sizeE] at hs ⊢; omega
    obtain ⟨e2, h1, h2, h3, h4⟩ := visitLoop_good fuel (.binary o l2 r2 t)
      (by simp [condFree, Bool.and_eq_true]; exact ⟨hl3, hr3⟩) ⟨hl2, hr2⟩ hs2
    refine ⟨e2, ?_, h2, h3, ?_⟩
    · simp only [optimizeExpr, hl1, hr1]; exact h1
    · simp [sizeE] at h4 hs ⊢; omega
  | .load b s off al p t, hc, hs => by
    have hcp : condFree p = true := by simpa [condFree] using hc
    have hsp : sizeE p < fuel := by simp [sizeE] at hs; omega
    obtain ⟨p2, hp1, hp2, hp3, hp4⟩ := optimizeExpr_good inv fuel p hcp hsp
    have hs2 : sizeE (.load b s off al p2 t) < fuel := by
      simp [sizeE] at hs ⊢; omega
    obtain ⟨e2, h1, h2, h3, h4⟩ := visitLoop_good fuel (.load b s off al p2 t)
      (by simp [condFree, hp3]) hp2 hs2
    refine ⟨e2, ?_, h2, h3, ?_⟩
    · simp only [optimizeExpr, hp1]; exact h1
    · simp [sizeE] at h4 hs ⊢; omega
  | .getGlobal n t, hc, hs => by
    obtain ⟨e2, h1, h2, h3, h4⟩ :=
      visitLoop_good fuel (.getGlobal n t) hc trivial hs
    exact ⟨e2, by simpa only [optimizeExpr] using h1, h2, h3, h4⟩
  | .setGlobal n v, hc, hs => by
    have hcv : condFree v = true := by simpa [condFree] using hc
    have hsv : sizeE v < fuel := by simp [sizeE] at hs; omega
    obtain ⟨v2, hv1, hv2, hv3, hv4⟩ := optimizeExpr_good inv fuel v hcv hsv
    have hs2 : sizeE (.setGlobal n v2) < fuel := by
      simp [sizeE] at hs ⊢; omega
    obtain ⟨e2, h1, h2, h3, h4⟩ := visitLoop_good fuel (.setGlobal n v2)
      (by simp [condFree, hv3]) hv2 hs2
    refine ⟨e2, ?_, h2, h3, ?_⟩
    · simp only [optimizeExpr, hv1]; exact h1
    · simp [sizeE] at h4 hs ⊢; omega
  | .ifExpr c t f ty, hc, hs => by simp [condFree] at hc
  | .select c t f ty, hc, hs => by simp [condFree] at hc
  | .break_ n v c, hc, hs => by simp [condFree] at hc
  | .callImport g ops t, hc, hs => by
    have hcops : condFreeL ops = true := by simpa [condFree] using hc
    have hsops : sizeL ops < fuel := by simp [sizeE] at hs; omega
    obtain ⟨ops2, ho1, ho2, ho3, ho4⟩ :=
      optimizeList_good inv fuel ops hcops hsops
    have hs2 : sizeE (.callImport g ops2 t) < fuel := by
      simp [sizeE] at hs ⊢; omega
    obtain ⟨e2, h1, h2, h3, h4⟩ := visitLoop_good fuel (.callImport g ops2 t)
      (by simp [condFree, ho3]) ho2 hs2
    refine ⟨e2, ?_, h2, h3, ?_⟩
    · simp only [optimizeExpr, ho1]; exact h1
    · simp [sizeE] at h4 hs ⊢; omega
  | .nop, hc, hs => by
    obtain ⟨e2, h1, h2, h3, h4⟩ := visitLoop_good fuel .nop hc trivial hs
    exact ⟨e2, by simpa only [optimizeExpr] using h1, h2, h3, h4⟩

/-- `optimizeExpr_good` on a child list. -/
theorem optimizeList_good (inv : Expression → Expression → Bool)
    (fuel : Nat) :
    ∀ ops, condFreeL ops = true → sizeL ops < fuel →
      ∃ ops2, optimizeList inv [] fuel ops = .ok ops2 ∧
        allFixedL inv ops2 ∧ condFreeL ops2 = true ∧ sizeL ops2 ≤ sizeL ops
  | .nil, _, _ => ⟨.nil, rfl, trivial, rfl, le_refl _⟩
  | .cons h t, hc, hs => by
    have hch : condFree h = true := by
      simp [condFreeL, Bool.and_eq_true] at hc; exact hc.1
    have hct : condFreeL t = true := by
      simp [condFreeL, Bool.and_eq_true] at hc; exact hc.2
    have hsh : sizeE h < fuel := by
      have := sizeE_pos h
      simp [sizeL] at hs; omega
    have hst : sizeL t < fuel := by
      have := sizeE_pos h
      simp [sizeL] at hs; omega
    obtain ⟨h2, hh1, hh2, hh3, hh4⟩ := optimizeExpr_good inv fuel h hch hsh
    obtain ⟨t2, ht1, ht2, ht3, ht4⟩ := optimizeList_good inv fuel t hct hst
    refine ⟨.cons h2 t2, ?_, ⟨hh2, ht2⟩, ?_, ?_⟩
    · simp only [optimizeList, hh1, ht1]
    · simp [condFreeL, Bool.and_eq_true]; exact ⟨hh3, ht3⟩
    · simp [sizeL]; omega
end

/-- Inversion of a parsed wildcard marker. -/
theorem markerInfo_some_inv {e : Expression} {ty : WasmType} {i : Nat}
    (h : markerInfo e = some (ty, i)) :
    ∃ g v t, e = .callImport g (.cons (.const (.i32 v)) .nil) t ∧
      wildcardInfo g = some ty ∧ i = toIndex v := by
  cases e with
  | callImport g ops t =>
    cases ops with
    | nil => simp [markerInfo] at h
    | cons h0 t0 =>
      cases t0 with
      | cons _ _ => simp [markerInfo] at h
      | nil =>
        cases h0 with
        | const lit =>
          cases lit with
          | i32 v =>
            simp only [markerInfo, Option.map_eq_some'] at h
            obtain ⟨ty2, hty2, heq⟩ := h
            cases heq
            exact ⟨g, v, t, rfl, hty2, rfl⟩
          | i64 v => simp [markerInfo] at h
          | f32 b => simp [markerInfo] at h
          | f64 b => simp [markerInfo] at h
        | unary _ _ _ => simp [markerInfo] at h
        | binary _ _ _ _ => simp [markerInfo] at h
        | load _ _ _ _ _ _ => simp [markerInfo] at h
        | getGlobal _ _ => simp [markerInfo] at h
        | setGlobal _ _ => simp [markerInfo] at h
        | ifExpr _ _ _ _ => simp [markerInfo] at h
        | select _ _ _ _ => simp [markerInfo] at h
        | break_ _ _ _ => simp [markerInfo] at h
        | callImport _ _ _ => simp [markerInfo] at h
        | nop => simp [markerInfo] at h
  | const _ => simp [markerInfo] at h
  | unary _ _ _ => simp [markerInfo] at h
  | binary _ _ _ _ => simp [markerInfo] at h
  | load _ _ _ _ _ _ => simp [markerInfo] at h
  | getGlobal _ _ => simp [markerInfo] at h
  | setGlobal _ _ => simp [markerInfo] at h
  | ifExpr _ _ _ _ => simp [markerInfo] at h
  | select _ _ _ _ => simp [markerInfo] at h
  | break_ _ _ _ => simp [markerInfo] at h
  | nop => simp [markerInfo] at h

/-- On a well-formed wildcard marker the substitution hook is exactly the
binding-vector access. -/
theorem copySub_marker {e : Expression} {ty : WasmType} {i : Nat}
    (w : Bindings) (hm : markerInfo e = some (ty, i)) :
    Match.copySub w e =
      match w[i]? with
      | some (some b) => .ok (some b)
      | some none => .error .nullBinding
      | none => .error .outOfRange := by
  obtain ⟨g, v, t, he, hg, hi⟩ := markerInfo_some_inv hm
  subst he; subst hi
  simp only [Match.copySub, hg, Option.isSome_some, if_true]

/-- On anything that is not a well-formed wildcard marker the substitution
hook declines and the node is copied as an ordinary node. -/
theorem copySub_not_marker {e : Expression} (w : Bindings)
    (hm : markerInfo e = none) : Match.copySub w e = .ok none := by
  cases e with
  | callImport g ops t =>
    cases ops with
    | nil => rfl
    | cons h0 t0 =>
      cases t0 with
      | cons _ _ =>
        cases h0 <;> try rfl
        next lit => cases lit <;> rfl
      | nil =>
        cases h0 with
        | const lit =>
          cases lit with
          | i32 v =>
            simp only [markerInfo, Option.map_eq_none'] at hm
            simp [Match.copySub, hm]
          | i64 v => rfl
          | f32 b => rfl
          | f64 b => rfl
        | unary _ _ _ => rfl
        | binary _ _ _ _ => rfl
        | load _ _ _ _ _ _ => rfl
        | getGlobal _ _ => rfl
        | setGlobal _ _ => rfl
        | ifExpr _ _ _ _ => rfl
        | select _ _ _ _ => rfl
        | break_ _ _ _ => rfl
        | callImport _ _ _ => rfl
        | nop => rfl
  | const _ => rfl
  | unary _ _ _ => rfl
  | binary _ _ _ _ => rfl
  | load _ _ _ _ _ _ => rfl
  | getGlobal _ _ => rfl
  | setGlobal _ _ => rfl
  | ifExpr _ _ _ _ => rfl
  | select _ _ _ _ => rfl
  | break_ _ _ _ => rfl
  | nop => rfl

mutual
/-- A successful instantiation certifies that every wildcard index it
referenced is inside the binding vector and bound to a subtree. -/
theorem flexibleCopy_ok_refs (w : Bindings) :
    ∀ e r, flexibleCopy w e = .ok r →
      ∀ i ∈ wildcardRefs e, i < w.length ∧ w[i]? ≠ some none
  | .const l, r, h => by
    intro i hi
    simp [wildcardRefs, markerInfo] at hi
  | .unary o v t, r, h => by
    intro i hi
    simp only [wildcardRefs, markerInfo] at hi
    simp only [flexibleCopy, Match.copySub] at h
    cases hv : flexibleCopy w v with
    | error er => rw [hv] at h; simp at h
    | ok v2 => exact flexibleCopy_ok_refs w v v2 hv i hi
  | .binary o l rr t, r, h => by
    intro i hi
    simp only [wildcardRefs, markerInfo] at hi
    simp only [flexibleCopy, Match.copySub] at h
    cases hl : flexibleCopy w l with
    | error er => rw [hl] at h; simp at h
    | ok l2 =>
      rw [hl] at h
      cases hr : flexibleCopy w rr with
      | error er => rw [hr] at h; simp at h
      | ok r2 =>
        rcases List.mem_append.mp hi with hil | hir
        · exact flexibleCopy_ok_refs w l l2 hl i hil
        · exact flexibleCopy_ok_refs w rr r2 hr i hir
  | .load b s off al p t, r, h => by
    intro i hi
    simp only [wildcardRefs, markerInfo] at hi
    simp only [flexibleCopy, Match.copySub] at h
    cases hp : flexibleCopy w p with
    | error er => rw [hp] at h; simp at h
    | ok p2 => exact flexibleCopy_ok_refs w p p2 hp i hi
  | .getGlobal n t, r, h => by
    intro i hi
    simp [wildcardRefs, markerInfo] at hi
  | .setGlobal n v, r, h => by
    intro i hi
    simp only [wildcardRefs, markerInfo] at hi
    simp only [flexibleCopy, Match.copySub] at h
    cases hv : flexibleCopy w v with
    | error er => rw [hv] at h; simp at h
    | ok v2 => exact flexibleCopy_ok_refs w v v2 hv i hi
  | .ifExpr c t f ty, r, h => by
    intro i hi
    simp only [wildcardRefs, markerInfo] at hi
    simp only [flexibleCopy, Match.copySub] at h
    cases hc : flexibleCopy w c with
    | error er => rw [hc] at h; simp at h
    | ok c2 =>
      rw [hc] at h
      cases ht : flexibleCopy w t with
      | error er => rw [ht] at h; simp at h
      | ok t2 =>
        rw [ht] at h
        cases hf : flexibleCopyOpt w f with
        | error er => rw [hf] at h; simp at h
        | ok f2 =>
          rcases List.mem_append.mp hi with hi2 | hif
          · rcases List.mem_append.mp hi2 with hic | hit
            · exact flexibleCopy_ok_refs w c c2 hc i hic
            · exact flexibleCopy_ok_refs w t t2 ht i hit
          · exact flexibleCopyOpt_ok_refs w f f2 hf i hif
  | .select c t f ty, r, h => by
    intro i hi
    simp only [wildcardRefs, markerInfo] at hi
    simp only [flexibleCopy, Match.copySub] at h
    cases hc : flexibleCopy w c with
    | error er => rw [hc] at h; simp at h
    | ok c2 =>
      rw [hc] at h
      cases ht : flexibleCopy w t with
      | error er => rw [ht] at h; simp at h
      | ok t2 =>
        rw [ht] at h
        cases hf : flexibleCopy w f with
        | error er => rw [hf] at h; simp at h
        | ok f2 =>
          rcases List.mem_append.mp hi with hi2 | hif
          · rcases List.mem_append.mp hi2 with hic | hit
            · exact flexibleCopy_ok_refs w c c2 hc i hic
            · exact flexibleCopy_ok_refs w t t2 ht i hit
          · exact flexibleCopy_ok_refs w f f2 hf i hif
  | .break_ n v c, r, h => by
    intro i hi
    simp only [wildcardRefs, markerInfo] at hi
    simp only [flexibleCopy, Match.copySub] at h
    cases hv : flexibleCopyOpt w v with
    | error er => rw [hv] at h; simp at h
    | ok v2 =>
      rw [hv] at h
      cases hc : flexibleCopyOpt w c with
      | error er => rw [hc] at h; simp at h
      | ok c2 =>
        rcases List.mem_append.mp hi with hiv | hic
        · exact flexibleCopyOpt_ok_refs w v v2 hv i hiv
        · exact flexibleCopyOpt_ok_refs w c c2 hc i hic
  | .callImport g ops t, r, h => by
    intro i hi
    cases hm : markerInfo (.callImport g ops t) with
    | some pr =>
      obtain ⟨ty, j⟩ := pr
      rw [wildcardRefs, hm] at hi
      simp only [List.mem_singleton] at hi
      subst hi
      simp only [flexibleCopy] at h
      rw [copySub_marker w hm] at h
      cases hw : w[i]? with
      | some slot =>
        cases slot with
        | some b =>
          refine ⟨?_, by simp [hw]⟩
          exact (List.getElem?_eq_some.mp hw).1
        | none => rw [hw] at h; simp at h
      | none => rw [hw] at h; simp at h
    | none =>
      rw [wildcardRefs, hm] at hi
      simp only [flexibleCopy] at h
      rw [copySub_not_marker w hm] at h
      cases hops : flexibleCopyList w ops with
      | error er => rw [hops] at h; simp at h
      | ok ops2 => exact flexibleCopyList_ok_refs w ops ops2 hops i hi
  | .nop, r, h => by
    intro i hi
    simp [wildcardRefs, markerInfo] at hi

/-- `flexibleCopy_ok_refs` on an optional child. -/
theorem flexibleCopyOpt_ok_refs (w : Bindings) :
    ∀ o r, flexibleCopyOpt w o = .ok r →
      ∀ i ∈ wildcardRefsO o, i < w.length ∧ w[i]? ≠ some none
  | .none, r, h => by
    intro i hi
    simp [wildcardRefsO] at hi
  | .some e, r, h => by
    intro i hi
    simp only [wildcardRefsO] at hi
    simp only [flexibleCopyOpt] at h
    cases he : flexibleCopy w e with
    | error er => rw [he] at h; simp at h
    | ok e2 => exact flexibleCopy_ok_refs w e e2 he i hi

/-- `flexibleCopy_ok_refs` on a child list. -/
theorem flexibleCopyList_ok_refs (w : Bindings) :
    ∀ ops r, flexibleCopyList w ops = .ok r →
      ∀ i ∈ wildcardRefsL ops, i < w.length ∧ w[i]? ≠ some none
  | .nil, r, h => by
    intro i hi
    simp [wildcardRefsL] at hi
  | .cons hd tl, r, h => by
    intro i hi
    simp only [wildcardRefsL] at hi
    simp only [flexibleCopyList] at h
    cases hh : flexibleCopy w hd with
    | error er => rw [hh] at h; simp at h
    | ok h2 =>
      rw [hh] at h
      cases htl : flexibleCopyList w tl with
      | error er => rw [htl] at h; simp at h
      | ok t2 =>
        rcases List.mem_append.mp hi with hih | hit
        · exact flexibleCopy_ok_refs w hd h2 hh i hih
        · exact flexibleCopyList_ok_refs w tl t2 htl i hit
end

/-- Padding never shrinks and reaches at least the requested length. -/
theorem padTo_length (w : Bindings) (n : Nat) :
    (Match.padTo w n).length = max w.length n := by
  simp [Match.padTo]
  omega

/-- Padding to an already-reached length is the identity. -/
theorem padTo_of_le {w : Bindings} {n : Nat} (h : n ≤ w.length) :
    Match.padTo w n = w := by
  simp [Match.padTo, Nat.sub_eq_zero_of_le h]

/-- Padding leaves the original slots unchanged. -/
theorem padTo_getElem_lt {w : Bindings} {n i : Nat} (h : i < w.length) :
    (Match.padTo w n)[i]? = w[i]? := by
  rw [Match.padTo, List.getElem?_append]
  simp [h]

/-- Padded slots are null entries. -/
theorem padTo_getElem_ge {w : Bindings} {n i : Nat} (h1 : w.length ≤ i)
    (h2 : i < n) : (Match.padTo w n)[i]? = some none := by
  rw [Match.padTo, List.getElem?_append]
  have : ¬ i < w.length := by omega
  simp only [this, if_false]
  rw [List.getElem?_replicate]
  have : i - w.length < n - w.length := by omega
  simp [this]

/-- `checkMatch` on an already-bound slot: the padding is a no-op, the
type requirement is checked, and then the candidate must be structurally
equal to the bound subtree; the binding vector is returned unchanged. -/
theorem checkMatch_bound (ty : WasmType) (i : Nat) (s : Expression)
    (w : Bindings) (b : Expression) (hw : w[i]? = some (some b)) :
    Match.checkMatch ty i s w =
      if ty ≠ WasmType.none ∧ s.type ≠ ty then none
      else if s = b then some w else none := by
  have hlen : i < w.length := (List.getElem?_eq_some.mp hw).1
  have hpad : Match.padTo w (i + 1) = w := padTo_of_le (by omega)
  by_cases hty : ty ≠ WasmType.none ∧ s.type ≠ ty
  · simp [Match.checkMatch, hty]
  · simp only [Match.checkMatch, hty, if_false, if_neg hty]
    rw [hpad, hw]

/-- `checkMatch` on an unbound slot (empty or beyond the current vector):
after the type requirement, the slot is bound to the candidate subtree
itself. -/
theorem checkMatch_fresh (ty : WasmType) (i : Nat) (s : Expression)
    (w : Bindings) (hw : w[i]? = some none ∨ w.length ≤ i)
    (hty : ty = WasmType.none ∨ s.type = ty) :
    Match.checkMatch ty i s w =
      some ((Match.padTo w (i + 1)).set i (some s)) ∧
    ((Match.padTo w (i + 1)).set i (some s))[i]? = some (some s) := by
  have hslot : (Match.padTo w (i + 1))[i]? = some none := by
    rcases hw with hw | hw
    · have hlen : i < w.length := (List.getElem?_eq_some.mp hw).1
      rw [padTo_getElem_lt hlen, hw]
    · exact padTo_getElem_ge hw (by omega)
  have hlen2 : i < (Match.padTo w (i + 1)).length := by
    rw [padTo_length]; omega
  constructor
  · have hty2 : ¬ (ty ≠ WasmType.none ∧ s.type ≠ ty) := by tauto
    simp only [Match.checkMatch, if_neg hty2]
    rw [hslot]
  · simp [List.getElem?_set_self', List.getElem?_eq_getElem hlen2]

set_option maxHeartbeats 1000000 in
/-- The structural matcher treats a well-formed i32 wildcard marker by the
wildcard logic alone. -/
theorem flexibleEqual_wcMark (i : Nat) (hsmall : i < 4294967296)
    (s : Expression) (w : Bindings) :
    flexibleEqual (wcMark i) s w = Match.checkMatch .i32 i s w := by
  have hm : markerInfo (wcMark i) = some (.i32, i) := by
    simp [markerInfo, wcMark, wildcardInfo, toIndex]
    omega
  have htoi : toIndex (Int.ofNat i) = i := by
    simp [toIndex]
    omega
  rw [flexibleEqual.eq_def, hm]
  simp only [Option.isSome_some, if_true]
  have hcomp : Match.compare (wcMark i) s w =
      Match.checkMatch .i32 (toIndex (Int.ofNat i)) s w := rfl
  rw [hcomp, htoi]

/-- Inversion of the claim-side sign-extend characterization. -/
theorem signExtendSpec_some {l r e : Expression}
    (h : signExtendSpec l r = some e) :
    ∃ bytes sg off al p lty shlty k,
      l = .binary .shlInt32 (.load bytes sg off al p lty)
            (.const (.i32 k)) shlty ∧
      r = .const (.i32 k) ∧
      ((bytes = 1 ∧ k = 24) ∨ (bytes = 2 ∧ k = 16)) ∧
      e = .load bytes true off al p lty := by
  unfold signExtendSpec at h
  split at h
  next bytes sg off al p lty k1 shlty k2 =>
    split at h
    next hk =>
      obtain ⟨hk1, hguard⟩ := hk
      subst hk1
      exact ⟨bytes, sg, off, al, p, lty, shlty, k1, rfl, rfl, hguard,
        by simpa using h.symm⟩
    next => simp at h
  next => simp at h

/-- The source-translated sign-extend fusion coincides with the claim-side
characterization on every pair of operands. -/
theorem sef_eq_spec (l r : Expression) :
    signExtendFusion l r = signExtendSpec l r := by
  cases hf : signExtendFusion l r with
  | some e =>
    obtain ⟨bytes, sg, off, al, p, lty, shlty, k, hl, hr, hbk, he⟩ :=
      signExtendFusion_some hf
    subst hl; subst hr; subst he
    have hspec : signExtendSpec
        (.binary .shlInt32 (.load bytes sg off al p lty)
          (.const (.i32 k)) shlty) (.const (.i32 k)) =
        if k = k ∧ ((bytes = 1 ∧ k = 24) ∨ (bytes = 2 ∧ k = 16)) then
          some (.load bytes true off al p lty)
        else none := rfl
    rw [hspec, if_pos ⟨rfl, hbk⟩]
  | none =>
    cases hs : signExtendSpec l r with
    | none => rfl
    | some e2 =>
      obtain ⟨bytes, sg, off, al, p, lty, shlty, k, hl, hr, hbk, he⟩ :=
        signExtendSpec_some hs
      subst hl; subst hr
      rw [signExtendFusion_fires bytes sg off al p lty shlty k hbk] at hf
      simp at hf

/-- The left-constant-zero half of the canonicalization produces the
is-zero of the right operand for every right operand (also when the right
operand is itself the zero constant, in which case the right-constant half
fires first with the same result). -/
theorem eqZeroCanon_left (y : Expression) :
    eqZeroCanon (.const (.i32 0)) y = some (.unary .eqZInt32 y .i32) := by
  cases y with
  | const lit =>
    cases lit with
    | i32 v =>
      by_cases hv : v = 0
      · subst hv; rfl
      · simp [eqZeroCanon, eqZeroLeft, Literal.geti32, hv]
    | i64 v => simp [eqZeroCanon, eqZeroLeft, Literal.geti32]
    | f32 b => simp [eqZeroCanon, eqZeroLeft, Literal.geti32]
    | f64 b => simp [eqZeroCanon, eqZeroLeft, Literal.geti32]
  | unary _ _ _ => rfl
  | binary _ _ _ _ => rfl
  | load _ _ _ _ _ _ => rfl
  | getGlobal _ _ => rfl
  | setGlobal _ _ => rfl
  | ifExpr _ _ _ _ => rfl
  | select _ _ _ _ => rfl
  | break_ _ _ _ => rfl
  | callImport _ _ _ => rfl
  | nop => rfl

/-- A condition that is not itself an is-zero is left alone by the
double-negation normalization when wrapped in one is-zero. -/
theorem optimizeBoolean_eqz_norm (c : Expression) (cty : WasmType)
    (hc : isEqZUnary c = false) :
    optimizeBoolean (.unary .eqZInt32 c cty) = .unary .eqZInt32 c cty := by
  cases c with
  | unary op2 v2 t2 =>
    cases op2 with
    | eqZInt32 => simp [isEqZUnary] at hc
    | eqZInt64 => rfl
    | clzInt32 => rfl
    | negFloat32 => rfl
  | const _ => rfl
  | binary _ _ _ _ => rfl
  | load _ _ _ _ _ _ => rfl
  | getGlobal _ _ => rfl
  | setGlobal _ _ => rfl
  | ifExpr _ _ _ _ => rfl
  | select _ _ _ _ => rfl
  | break_ _ _ _ => rfl
  | callImport _ _ _ => rfl
  | nop => rfl

/-- Claim C1 counterexample: the ordered float comparison `LtFloat32`
falls into the `default` arm of the De Morgan switch, so
`is-zero(x <f32 y)` is not rewritten at all, contradicting the claim that
every comparison operator across all four numeric types is negated. -/
theorem claim1_counterexample :
    handOptimize neverInvalidates
      (.unary .eqZInt32
        (.binary .ltFloat32 (.getGlobal "x" .f32) (.getGlobal "y" .f32) .i32)
        .i32) = .unchanged := rfl

/-- Claim C1 amended: the De Morgan rewrite negates every integer
comparison operator of both widths (equality, inequality, and the ordered
comparisons in signed and unsigned variants) and float equality and
inequality, and leaves every ordered float comparison untouched. -/
theorem claim1_demorgan_table :
    negRewrites .eqInt32 .neInt32 ∧ negRewrites .neInt32 .eqInt32 ∧
    negRewrites .ltSInt32 .geSInt32 ∧ negRewrites .ltUInt32 .geUInt32 ∧
    negRewrites .leSInt32 .gtSInt32 ∧ negRewrites .leUInt32 .gtUInt32 ∧
    negRewrites .gtSInt32 .leSInt32 ∧ negRewrites .gtUInt32 .leUInt32 ∧
    negRewrites .geSInt32 .ltSInt32 ∧ negRewrites .geUInt32 .ltUInt32 ∧
    negRewrites .eqInt64 .neInt64 ∧ negRewrites .neInt64 .eqInt64 ∧
    negRewrites .ltSInt64 .geSInt64 ∧ negRewrites .ltUInt64 .geUInt64 ∧
    negRewrites .leSInt64 .gtSInt64 ∧ negRewrites .leUInt64 .gtUInt64 ∧
    negRewrites .gtSInt64 .leSInt64 ∧ negRewrites .gtUInt64 .leUInt64 ∧
    negRewrites .geSInt64 .ltSInt64 ∧ negRewrites .geUInt64 .ltUInt64 ∧
    negRewrites .eqFloat32 .neFloat32 ∧ negRewrites .neFloat32 .eqFloat32 ∧
    negRewrites .eqFloat64 .neFloat64 ∧ negRewrites .neFloat64 .eqFloat64 ∧
    negUntouched .ltFloat32 ∧ negUntouched .leFloat32 ∧
    negUntouched .gtFloat32 ∧ negUntouched .geFloat32 ∧
    negUntouched .ltFloat64 ∧ negUntouched .leFloat64 ∧
    negUntouched .gtFloat64 ∧ negUntouched .geFloat64 := by
  repeat' apply And.intro
  all_goals intro inv x y bty uty
  all_goals rfl

/-- Claim C2: the hand-coded simplifier on a `ShrSInt32` node behaves
exactly as the claim describes the sign-extend fusion — it rewrites to the
underlying load marked sign-extending precisely when both shift amounts
are equal integer constants of 24 or 16, the shifted operand is a load,
and the byte width of the load matches the shift amount; in all other
cases (in particular a 1-byte load with shift 16) it does nothing. -/
theorem claim2_signExtend_exact :
    ∀ (inv : Expression → Expression → Bool) (l r : Expression)
      (ty : WasmType),
      handOptimize inv (.binary .shrSInt32 l r ty) =
        (signExtendSpec l r).elim HandResult.unchanged HandResult.replaced := by
  intro inv l r ty
  rw [handOptimize_shrS, sef_eq_spec]

/-- Claim C6 counterexample: a 64-bit integer equality with the constant
zero on the right is an equality comparison with an integer-constant-zero
side, yet the hand-coded simplifier leaves it untouched (the rule tests
only `EqInt32`). -/
theorem claim6_counterexample :
    handOptimize neverInvalidates
      (.binary .eqInt64 (.getGlobal "x" .i64) (.const (.i64 0)) .i32) =
      .unchanged := rfl

/-- Claim C6 amended: every 32-bit integer equality with the constant
zero on either side is rewritten to the is-zero unary test on the other
operand; 64-bit integer equality with the constant zero is not rewritten
at all. -/
theorem claim6_eqzero_canonicalization :
    (∀ (inv : Expression → Expression → Bool) (x : Expression)
       (ty : WasmType),
       handOptimize inv (.binary .eqInt32 x (.const (.i32 0)) ty) =
         .replaced (.unary .eqZInt32 x .i32)) ∧
    (∀ (inv : Expression → Expression → Bool) (y : Expression)
       (ty : WasmType),
       handOptimize inv (.binary .eqInt32 (.const (.i32 0)) y ty) =
         .replaced (.unary .eqZInt32 y .i32)) ∧
    (∀ (inv : Expression → Expression → Bool) (x : Expression)
       (ty : WasmType),
       handOptimize inv (.binary .eqInt64 x (.const (.i64 0)) ty) =
         .unchanged) ∧
    (∀ (inv : Expression → Expression → Bool) (y : Expression)
       (ty : WasmType),
       handOptimize inv (.binary .eqInt64 (.const (.i64 0)) y ty) =
         .unchanged) := by
  refine ⟨?_, ?_, ?_, ?_⟩
  · intro inv x ty
    rw [handOptimize_eq32]
    rfl
  · intro inv y ty
    rw [handOptimize_eq32, eqZeroCanon_left]
    rfl
  · intro inv x ty
    rfl
  · intro inv y ty
    rfl

/-- Claim C7: for a select whose normalized condition is is-zero of `c`
(with `c` not itself an is-zero), the rewrite is guarded by the effect
oracle — when the oracle reports invalidation between the two value
operands the select is left unchanged, and when it reports none the
select is rewritten to condition `c` with the two arms swapped. -/
theorem claim7_select_flip :
    ∀ (inv : Expression → Expression → Bool) (c : Expression)
      (cty : WasmType) (a b : Expression) (ty : WasmType),
      isEqZUnary c = false →
      handOptimize inv (.select (.unary .eqZInt32 c cty) a b ty) =
        if inv a b then .inPlace (.select (.unary .eqZInt32 c cty) a b ty)
        else .inPlace (.select c b a ty) := by
  intro inv c cty a b ty hc
  have hnorm := optimizeBoolean_eqz_norm c cty hc
  simp only [handOptimize]
  rw [hnorm]

/-- Claim C7 witness: on a concrete select with is-zero condition, the
always-conflicting oracle blocks the flip and the never-conflicting
oracle performs it. -/
theorem claim7_witness :
    handOptimize alwaysInvalidates selNeg = .inPlace selNeg ∧
    handOptimize neverInvalidates selNeg =
      .inPlace (.select gGet (cI32 2) (cI32 1) .i32) := by
  constructor
  · have h := claim7_select_flip alwaysInvalidates gGet .i32
      (cI32 1) (cI32 2) .i32 rfl
    simpa [selNeg, eqzE, alwaysInvalidates] using h
  · have h := claim7_select_flip neverInvalidates gGet .i32
      (cI32 1) (cI32 2) .i32 rfl
    simpa [selNeg, eqzE, neverInvalidates] using h

/-- Claim C8: a call to a reserved wildcard name whose operand count is
not one, or whose single operand is not an i32 integer constant, is never
treated as a wildcard — the structural-match hook rejects it (so it is
compared as an ordinary call) and the instantiation hook declines to
substitute for it (so it is copied as an ordinary call). -/
theorem claim8_malformed_wildcards :
    ∀ (target : String) (ops : ExprList) (cty : WasmType)
      (s : Expression) (w : Bindings),
      target ∈ wildcardNames →
      (ops.length ≠ 1 ∨ ∀ v : Int, ops ≠ .cons (.const (.i32 v)) .nil) →
      Match.compare (.callImport target ops cty) s w = none ∧
      Match.copySub w (.callImport target ops cty) = .ok none := by
  intro target ops cty s w _ hmal
  cases ops with
  | nil => exact ⟨rfl, rfl⟩
  | cons h0 t0 =>
    cases t0 with
    | cons h1 t1 =>
      cases h0 with
      | const lit => cases lit <;> exact ⟨rfl, rfl⟩
      | unary _ _ _ => exact ⟨rfl, rfl⟩
      | binary _ _ _ _ => exact ⟨rfl, rfl⟩
      | load _ _ _ _ _ _ => exact ⟨rfl, rfl⟩
      | getGlobal _ _ => exact ⟨rfl, rfl⟩
      | setGlobal _ _ => exact ⟨rfl, rfl⟩
      | ifExpr _ _ _ _ => exact ⟨rfl, rfl⟩
      | select _ _ _ _ => exact ⟨rfl, rfl⟩
      | break_ _ _ _ => exact ⟨rfl, rfl⟩
      | callImport _ _ _ => exact ⟨rfl, rfl⟩
      | nop => exact ⟨rfl, rfl⟩
    | nil =>
      cases h0 with
      | const lit =>
        cases lit with
        | i32 v =>
          exfalso
          rcases hmal with hlen | hform
          · exact hlen rfl
          · exact hform v rfl
        | i64 v => exact ⟨rfl, rfl⟩
        | f32 b => exact ⟨rfl, rfl⟩
        | f64 b => exact ⟨rfl, rfl⟩
      | unary _ _ _ => exact ⟨rfl, rfl⟩
      | binary _ _ _ _ => exact ⟨rfl, rfl⟩
      | load _ _ _ _ _ _ => exact ⟨rfl, rfl⟩
      | getGlobal _ _ => exact ⟨rfl, rfl⟩
      | setGlobal _ _ => exact ⟨rfl, rfl⟩
      | ifExpr _ _ _ _ => exact ⟨rfl, rfl⟩
      | select _ _ _ _ => exact ⟨rfl, rfl⟩
      | break_ _ _ _ => exact ⟨rfl, rfl⟩
      | callImport _ _ _ => exact ⟨rfl, rfl⟩
      | nop => exact ⟨rfl, rfl⟩

/-- Claim C8 witness: a two-operand call to a reserved wildcard name is
neither matched as a wildcard nor substituted for. -/
theorem claim8_witness :
    Match.compare
        (.callImport "i32.expr" (.cons (cI32 0) (.cons (cI32 1) .nil)) .i32)
        gGet [] = none ∧
    Match.copySub []
        (.callImport "i32.expr" (.cons (cI32 0) (.cons (cI32 1) .nil)) .i32) =
      .ok none :=
  claim8_malformed_wildcards "i32.expr"
    (.cons (cI32 0) (.cons (cI32 1) .nil)) .i32 gGet []
    (by simp [wildcardNames]) (Or.inl (by decide))

/-- Claim C10: when the sign-extend fusion fires, the returned node is the
load already present in the tree with only its signedness flag set to
true — byte width, offset, alignment, address operand and value type are
all unchanged.  (Pointer identity of the C++ is rendered as value
equality with the original load's fields.) -/
theorem claim10_fusion_preserves_load :
    ∀ (inv : Expression → Expression → Bool) (bytes : Nat) (sg : Bool)
      (off al : Nat) (p : Expression) (lty shlty shrty : WasmType) (k : Int),
      ((bytes = 1 ∧ k = 24) ∨ (bytes = 2 ∧ k = 16)) →
      handOptimize inv
          (.binary .shrSInt32
            (.binary .shlInt32 (.load bytes sg off al p lty)
              (.const (.i32 k)) shlty)
            (.const (.i32 k)) shrty) =
        .replaced (.load bytes true off al p lty) := by
  intro inv bytes sg off al p lty shlty shrty k hk
  rw [handOptimize_shrS, signExtendFusion_fires bytes sg off al p lty shlty k hk]
  rfl

/-- Claim C10 witness: fusing an unsigned 1-byte load under a 24-bit
shift pair yields that load with the signedness flag set. -/
theorem claim10_witness :
    handOptimize neverInvalidates
      (.binary .shrSInt32
        (.binary .shlInt32 (.load 1 false 0 1 gGet .i32) (cI32 24) .i32)
        (cI32 24) .i32) =
      .replaced (.load 1 true 0 1 gGet .i32) :=
  claim10_fusion_preserves_load neverInvalidates 1 false 0 1 gGet
    .i32 .i32 .i32 24 (Or.inl ⟨rfl, rfl⟩)

/-- Claim C3 counterexample: a pattern whose output references wildcard
index 0 while its input binds no wildcard passes the structural check, and
the instantiation then raises the out-of-range error of
`std::vector::at` — an error that propagates out of the single
match-and-apply attempt, contradicting the claim that no exception or
error value propagates. -/
theorem claim3_counterexample :
    Match.check patConstWc (cI32 1) = some [] ∧
    Match.apply patConstWc [] = .error .outOfRange := ⟨rfl, rfl⟩

/-- Claim C3 amended: when the output template references a wildcard index
with no bound slot (past the end of the binding vector or bound to null),
the instantiation produces no result tree — it fails with a propagating
out-of-range/null error (the exception of the defensive `at` access)
rather than a silently-handled failure value. -/
theorem claim3_dangling_output_fails :
    ∀ (p : Pattern) (w : Bindings) (i : Nat), i ∈ wildcardRefs p.output →
      (w.length ≤ i ∨ w[i]? = some none) →
      (Match.apply p w).isOk = false := by
  intro p w i hi hbad
  cases h : Match.apply p w with
  | error er => rfl
  | ok r =>
    exfalso
    obtain ⟨h1, h2⟩ := flexibleCopy_ok_refs w p.output r h i hi
    rcases hbad with hb | hb
    · omega
    · exact h2 hb

/-- Claim C3 witness: the dangling-reference pattern fails to instantiate
against the empty binding vector. -/
theorem claim3_witness : (Match.apply patConstWc []).isOk = false :=
  claim3_dangling_output_fails patConstWc [] 0 (by decide) (Or.inl (by decide))

/-- Claim C5 counterexample: the if-arm flip is a hand-coded rule that
changes the current node, yet after it fires the driving loop does not
restart the hand-coded phase — one visit of `ifFour` stops at `ifOnce`,
a node on which a hand-coded rule still fires (it would rewrite it to
`ifTwice`), which would be impossible had the phase been restarted on the
changed node as the claim states. -/
theorem claim5_counterexample :
    visitLoop neverInvalidates [] 5 ifFour = .ok ifOnce ∧
    handOptimize neverInvalidates ifOnce = .inPlace ifTwice ∧
    ifTwice ≠ ifOnce := ⟨rfl, rfl, by decide⟩

/-- Claim C5 amended: the driving loop restarts the hand-coded phase only
when a rule returns a replacement node (first part: the zero-comparison
canonicalization chains into the De Morgan flip within one visit); the
in-place rules (self-assignment elimination, if-arm flip, select flip,
condition normalization) report no change to the loop, which therefore
proceeds to the pattern database without restarting (second part: one
visit leaves a node on which a hand-coded rule still fires). -/
theorem claim5_restart_only_on_replacement :
    (∀ (inv : Expression → Expression → Bool) (x y : Expression)
       (bty : WasmType),
       visitLoop inv [] 3
           (.binary .eqInt32 (.binary .ltSInt32 x y bty)
             (.const (.i32 0)) .i32) =
         .ok (.binary .geSInt32 x y bty)) ∧
    (∀ inv : Expression → Expression → Bool,
       visitLoop inv [] 5 ifFour = .ok ifOnce ∧
       handOptimize inv ifOnce = .inPlace ifTwice) := by
  constructor
  · intro inv x y bty
    rfl
  · intro inv
    exact ⟨rfl, rfl⟩

/-- Claim C9 counterexample: running the full optimizer twice is not the
same as running it once — the first run turns `ifFour` into `ifOnce`, and
a second run changes the tree again, to `ifTwice`. -/
theorem claim9_counterexample :
    optimizeExpr neverInvalidates [] 9 ifFour = .ok ifOnce ∧
    optimizeExpr neverInvalidates [] 9 ifOnce = .ok ifTwice ∧
    ifTwice ≠ ifOnce := ⟨rfl, rfl, by decide⟩

/-- Claim C9 amended: on trees containing no `if`, `select` or
conditional-break node, one run of the optimizer (hand-coded rules plus
the pattern phase, driven to fixpoint per node in post-order) reaches a
fixpoint: a second run produces no further change.  (The pattern database
contents are not part of the analyzed sources; the run is with the empty
ruleset, and the loop fuel must exceed the tree size.) -/
theorem claim9_idempotent_on_condFree :
    ∀ (inv : Expression → Expression → Bool) (e : Expression) (fuel : Nat),
      condFree e = true → sizeE e < fuel →
      ∃ e2, optimizeExpr inv [] fuel e = .ok e2 ∧
        optimizeExpr inv [] fuel e2 = .ok e2 := by
  intro inv e fuel hc hs
  obtain ⟨e2, h1, h2, _, _⟩ := optimizeExpr_good inv fuel e hc hs
  have hf : 1 ≤ fuel := by
    have := sizeE_pos e
    omega
  exact ⟨e2, h1, optimizeExpr_fixed inv fuel hf e2 h2⟩

/-- Claim C9 witness: a comparison-to-zero tree is optimized to a stable
form in one run. -/
theorem claim9_witness :
    ∃ e2, optimizeExpr neverInvalidates [] 4
        (.binary .eqInt32 gGet (cI32 0) .i32) = .ok e2 ∧
      optimizeExpr neverInvalidates [] 4 e2 = .ok e2 :=
  claim9_idempotent_on_condFree neverInvalidates
    (.binary .eqInt32 gGet (cI32 0) .i32) 4 (by decide) (by decide)

/-- Claim C4: wildcard consistency.  First part: a first occurrence of a
wildcard index binds the slot to the candidate subtree itself (no copy).
Second part: a later occurrence of an already-bound index succeeds exactly
when the candidate passes the type requirement and is structurally equal
to the bound subtree, and binds nothing new.  Third part: consequently the
`x - x` pattern (both input operands wildcard index 0) matches
`a - b` exactly when `a` is an i32 expression and `b` is structurally
equal to `a`; an unequal second occurrence fails the whole match. -/
theorem claim4_wildcard_consistency :
    (∀ (ty : WasmType) (i : Nat) (s : Expression) (w : Bindings),
       (w[i]? = some none ∨ w.length ≤ i) →
       (ty = WasmType.none ∨ s.type = ty) →
       Match.checkMatch ty i s w =
         some ((Match.padTo w (i + 1)).set i (some s)) ∧
       ((Match.padTo w (i + 1)).set i (some s))[i]? = some (some s)) ∧
    (∀ (ty : WasmType) (i : Nat) (s : Expression) (w : Bindings)
       (b : Expression), w[i]? = some (some b) →
       Match.checkMatch ty i s w =
         if ty ≠ WasmType.none ∧ s.type ≠ ty then none
         else if s = b then some w else none) ∧
    (∀ a b : Expression,
       (Match.check patSubXX (.binary .subInt32 a b .i32)).isSome ↔
         (a.type = .i32 ∧ b = a)) := by
  refine ⟨checkMatch_fresh, checkMatch_bound, ?_⟩
  intro a b
  have hroot : Match.check patSubXX (.binary .subInt32 a b .i32) =
      (match flexibleEqual (wcMark 0) a [] with
       | some w1 => flexibleEqual (wcMark 0) b w1
       | none => none) := rfl
  rw [hroot]
  by_cases ha : a.type = .i32
  · obtain ⟨hcm, hslot⟩ :=
      checkMatch_fresh .i32 0 a [] (Or.inr (by simp)) (Or.inr ha)
    have hleft : flexibleEqual (wcMark 0) a [] = some [some a] := by
      rw [flexibleEqual_wcMark 0 (by omega) a [], hcm]
      rfl
    rw [hleft]
    show (flexibleEqual (wcMark 0) b [some a]).isSome ↔ _
    rw [flexibleEqual_wcMark 0 (by omega) b [some a],
      checkMatch_bound .i32 0 b [some a] a rfl]
    by_cases hb : b = a
    · subst hb
      simp [ha]
    · by_cases hty : (WasmType.i32 ≠ WasmType.none ∧ b.type ≠ WasmType.i32)
      · rw [if_pos hty]
        simp [hb]
      · rw [if_neg hty, if_neg hb]
        simp [hb]
  · have hnone : Match.checkMatch .i32 0 a [] = none := by
      simp only [Match.checkMatch]
      rw [if_pos ⟨by simp, ha⟩]
    rw [flexibleEqual_wcMark 0 (by omega) a [], hnone]
    simp [ha]

/-- Claim C4 witness: a second occurrence bound to a different subtree
fails, and the `x - x` pattern accepts a repeated operand. -/
theorem claim4_witness :
    Match.checkMatch .i32 0 (cI32 2) [some (cI32 1)] = none ∧
    (Match.check patSubXX (.binary .subInt32 gGet gGet .i32)).isSome := by
  constructor
  · have h := claim4_wildcard_consistency.2.1 .i32 0 (cI32 2)
      [some (cI32 1)] (cI32 1) rfl
    simpa using h
  · exact (claim4_wildcard_consistency.2.2 gGet gGet).mpr ⟨rfl, rfl⟩

end OptInst
